import Mathlib

/-!
Verification of the go-xsd XML Schema validator (agentflare-ai/go-xsd).

This development shallowly embeds the parts of the Go source that the
checked properties are about, and proves or refutes each property against
that embedding.  Go maps are embedded as association lists (Go's random map
iteration order becomes insertion order; every property proved here is
order-insensitive or is evaluated on inputs with at most one key), Go
interface values that may be nil become `Option`, machine `int` becomes
`Int`, and Go strings become Lean `String` (with character-list helpers
mirroring the semantics of the `strings` package functions the source
uses).  Mutex operations in the source are no-ops for the single-threaded
semantics embedded here and are dropped.
-/

namespace GoXsd

/-- QName from xsd.go: a qualified XML name (namespace URI + local name).
Equality is by value, as in Go. -/
structure QName where
  Namespace : String
  Local : String
deriving DecidableEq, Repr

/-- Association-list embedding of a Go `map[string]V` read `m[k]`. -/
def lookupS {α : Type} : List (String × α) → String → Option α
  | [], _ => none
  | (k, v) :: rest, key => if k = key then some v else lookupS rest key

/-- Association-list embedding of a Go `map[QName]V` read `m[k]`. -/
def lookupQ {α : Type} : List (QName × α) → QName → Option α
  | [], _ => none
  | (k, v) :: rest, key => if k = key then some v else lookupQ rest key

/-- Association-list embedding of a Go map write `m[k] = v`: overwrite the
binding in place if the key is present, append it otherwise. -/
def insertS {α : Type} : List (String × α) → String → α → List (String × α)
  | [], key, v => [(key, v)]
  | (k, w) :: rest, key, v =>
    if k = key then (k, v) :: rest else (k, w) :: insertS rest key v

/-- XML attribute as exposed by the read-only xmldom tree: local name and
node value. -/
structure Attr where
  localName : String
  value : String
deriving DecidableEq, Repr

/-- XML element as exposed by the read-only xmldom tree: local name,
namespace URI, attributes in document order, child elements in document
order, and the element's direct text nodes (in order; `getElementTextContent`
concatenates them, which is all the source reads them for). -/
inductive Elem where
  | mk (localName : String) (nsURI : String) (attrs : List Attr)
      (children : List Elem) (textNodes : List String)

def Elem.localName : Elem → String
  | .mk ln _ _ _ _ => ln

def Elem.nsURI : Elem → String
  | .mk _ ns _ _ _ => ns

def Elem.attrs : Elem → List Attr
  | .mk _ _ as _ _ => as

def Elem.children : Elem → List Elem
  | .mk _ _ _ ch _ => ch

def Elem.textNodes : Elem → List String
  | .mk _ _ _ _ ts => ts

/-- `elem.GetAttribute(name)`: value of the first attribute with that local
name, or the empty string when absent. -/
def Elem.getAttribute (e : Elem) (name : String) : String :=
  match e.attrs.find? (fun a => a.localName = name) with
  | some a => a.value
  | none => ""

/-- An xmldom Document: `DocumentElement()` may be nil. -/
structure Document where
  documentElement : Option Elem

/-- Violation from xsd.go (the diagnostic record the validator returns).
The `element` pointer may be nil. -/
structure Violation where
  Element : Option Elem
  Attribute : String
  Code : String
  Message : String
  Expected : List String
  Actual : String

/-! ## Built-in datatype registry (builtin_types.go)

`BuiltinType.Validator` is a Go function pointer; the embedding records the
identifier of the registered validator function (the validator bodies are
not needed by any checked property — only which registry entry a lookup
returns). -/

structure BuiltinType where
  Name : String
  Validator : String
deriving DecidableEq, Repr

/-- The registry built by `registerBuiltinTypes`, in registration order. -/
def builtinTypes : List (String × BuiltinType) :=
  [("string", ⟨"string", "validateString"⟩),
   ("boolean", ⟨"boolean", "validateBoolean"⟩),
   ("decimal", ⟨"decimal", "validateDecimal"⟩),
   ("float", ⟨"float", "validateFloat"⟩),
   ("double", ⟨"double", "validateDouble"⟩),
   ("duration", ⟨"duration", "validateDuration"⟩),
   ("dateTime", ⟨"dateTime", "validateDateTime"⟩),
   ("time", ⟨"time", "validateTime"⟩),
   ("date", ⟨"date", "validateDate"⟩),
   ("gYearMonth", ⟨"gYearMonth", "validateGYearMonth"⟩),
   ("gYear", ⟨"gYear", "validateGYear"⟩),
   ("gMonthDay", ⟨"gMonthDay", "validateGMonthDay"⟩),
   ("gDay", ⟨"gDay", "validateGDay"⟩),
   ("gMonth", ⟨"gMonth", "validateGMonth"⟩),
   ("hexBinary", ⟨"hexBinary", "validateHexBinary"⟩),
   ("base64Binary", ⟨"base64Binary", "validateBase64Binary"⟩),
   ("anyURI", ⟨"anyURI", "validateAnyURI"⟩),
   ("QName", ⟨"QName", "validateQName"⟩),
   ("NOTATION", ⟨"NOTATION", "validateNOTATION"⟩),
   ("normalizedString", ⟨"normalizedString", "validateNormalizedString"⟩),
   ("token", ⟨"token", "validateToken"⟩),
   ("language", ⟨"language", "validateLanguage"⟩),
   ("Name", ⟨"Name", "validateName"⟩),
   ("NCName", ⟨"NCName", "validateNCName"⟩),
   ("ID", ⟨"ID", "validateID"⟩),
   ("IDREF", ⟨"IDREF", "validateIDREF"⟩),
   ("IDREFS", ⟨"IDREFS", "validateIDREFS"⟩),
   ("ENTITY", ⟨"ENTITY", "validateENTITY"⟩),
   ("ENTITIES", ⟨"ENTITIES", "validateENTITIES"⟩),
   ("NMTOKEN", ⟨"NMTOKEN", "validateNMTOKEN"⟩),
   ("NMTOKENS", ⟨"NMTOKENS", "validateNMTOKENS"⟩),
   ("integer", ⟨"integer", "validateInteger"⟩),
   ("nonPositiveInteger", ⟨"nonPositiveInteger", "validateNonPositiveInteger"⟩),
   ("negativeInteger", ⟨"negativeInteger", "validateNegativeInteger"⟩),
   ("long", ⟨"long", "validateLong"⟩),
   ("int", ⟨"int", "validateInt"⟩),
   ("short", ⟨"short", "validateShort"⟩),
   ("byte", ⟨"byte", "validateByte"⟩),
   ("nonNegativeInteger", ⟨"nonNegativeInteger", "validateNonNegativeInteger"⟩),
   ("unsignedLong", ⟨"unsignedLong", "validateUnsignedLong"⟩),
   ("unsignedInt", ⟨"unsignedInt", "validateUnsignedInt"⟩),
   ("unsignedShort", ⟨"unsignedShort", "validateUnsignedShort"⟩),
   ("unsignedByte", ⟨"unsignedByte", "validateUnsignedByte"⟩),
   ("positiveInteger", ⟨"positiveInteger", "validatePositiveInteger"⟩)]

/-- The namespace-qualifier strip shared by `GetBuiltinType` and
`GetBuiltinTypeValidator`:
`if idx := strings.Index(name, ":"); idx >= 0 { name = name[idx+1:] }`,
i.e. drop everything up to and including the first colon when one exists. -/
def stripToLocal (name : String) : String :=
  if ':' ∈ name.data then String.mk (name.data.dropWhile (fun c => c ≠ ':')).tail
  else name

/-- `GetBuiltinType` from builtin_types.go. -/
def GetBuiltinType (name : String) : Option BuiltinType :=
  lookupS builtinTypes (stripToLocal name)

/-- `GetBuiltinTypeValidator` (simple-type evaluator file): strips the
qualifier again, then returns the registered validator of the built-in
type, or nil. -/
def GetBuiltinTypeValidator (typeName : String) : Option String :=
  match GetBuiltinType (stripToLocal typeName) with
  | some builtinType => some builtinType.Validator
  | none => none

/-! ## Whitespace normalization (`NormalizeWhiteSpace`)

The facet engine's whitespace normalizer works on Go strings; the embedding
works on their character lists.  `strings.ReplaceAll(s, "\t", " ")` with a
one-character pattern is a character map; `strings.Fields` splits around
maximal runs of `unicode.IsSpace` characters; `strings.Join(fs, " ")` is
intercalation with a single space. -/

theorem length_dropWhile_le' {α : Type} (p : α → Bool) (l : List α) :
    (l.dropWhile p).length ≤ l.length := by
  induction l with
  | nil => simp
  | cons a rest ih =>
    rw [List.dropWhile]
    cases p a
    · simp
    · simp
      omega

/-- `unicode.IsSpace`: the Unicode White_Space code points. -/
def goIsSpace (c : Char) : Bool :=
  c.toNat ∈ [0x9, 0xA, 0xB, 0xC, 0xD, 0x20, 0x85, 0xA0, 0x1680,
    0x2000, 0x2001, 0x2002, 0x2003, 0x2004, 0x2005, 0x2006, 0x2007,
    0x2008, 0x2009, 0x200A, 0x2028, 0x2029, 0x202F, 0x205F, 0x3000]

/-- `strings.ReplaceAll(s, string(a), string(b))` for one-character
patterns. -/
def replaceAllChar (l : List Char) (a b : Char) : List Char :=
  l.map (fun c => if c = a then b else c)

/-- `strings.Fields`: the maximal runs of non-space characters. -/
def goFields (l : List Char) : List (List Char) :=
  match l with
  | [] => []
  | c :: rest =>
    if goIsSpace c then goFields rest
    else (c :: rest.takeWhile (fun d => !goIsSpace d)) ::
      goFields (rest.dropWhile (fun d => !goIsSpace d))
termination_by l.length
decreasing_by
  · simp_arith
  · have h := length_dropWhile_le' (fun d => !goIsSpace d) rest
    simp_arith
    omega

/-- `strings.Fields` on a string, producing strings. -/
def goFieldsStr (s : String) : List String :=
  (goFields s.data).map String.mk

/-- The replace chain of the `"replace"` case of `NormalizeWhiteSpace`
(the `"collapse"` case re-enters `NormalizeWhiteSpace` with mode
`"replace"`, which computes exactly this). -/
def goReplaceWS (value : List Char) : List Char :=
  replaceAllChar (replaceAllChar (replaceAllChar value '\t' ' ') '\n' ' ') '\r' ' '

/-- `NormalizeWhiteSpace` from the facet engine: `replace` substitutes
TAB/LF/CR with spaces; `collapse` first does `replace`, then
`strings.Join(strings.Fields(result), " ")`; any other mode (`preserve`)
returns the value unchanged. -/
def NormalizeWhiteSpace (value : List Char) (whiteSpace : String) : List Char :=
  if whiteSpace = "replace" then
    goReplaceWS value
  else if whiteSpace = "collapse" then
    List.intercalate [' '] (goFields (goReplaceWS value))
  else
    value

/-! ## Wildcard namespace constraints (wildcards file and validator) -/

/-- `WildcardNamespaceConstraint` from the wildcards file. -/
structure WildcardNamespaceConstraint where
  Mode : String
  Namespaces : List String
deriving DecidableEq, Repr

/-- `strings.HasPrefix(s, "##")`. -/
def hasHashHash (s : String) : Bool :=
  s.data.take 2 = ['#', '#']

/-- `ParseNamespaceConstraint`: empty defaults to `##any`; a value that does
not start with `##` is parsed as a space-separated list. -/
def ParseNamespaceConstraint (value : String) : WildcardNamespaceConstraint :=
  let value := if value = "" then "##any" else value
  if ¬ hasHashHash value then ⟨"list", goFieldsStr value⟩
  else ⟨value, []⟩

/-- `WildcardNamespaceConstraint.Matches`: the switch over the parsed mode.
In `list` mode the source runs two loops (literal URI equality, then
interpretation of `##targetNamespace` / `##local` entries); their
disjunction is taken here. -/
def WildcardNamespaceConstraint.Matches (c : WildcardNamespaceConstraint)
    (nspace targetNamespace : String) : Bool :=
  if c.Mode = "##any" then true
  else if c.Mode = "##other" then nspace ≠ targetNamespace
  else if c.Mode = "##targetNamespace" then nspace = targetNamespace
  else if c.Mode = "##local" then nspace = ""
  else if c.Mode = "list" then
    c.Namespaces.any (fun ns => ns = nspace) ||
      c.Namespaces.any (fun ns =>
        (ns = "##targetNamespace" ∧ nspace = targetNamespace) ∨
          (ns = "##local" ∧ nspace = ""))
  else false

/-- `Validator.matchesNamespace` (instance-validator file): the direct
string-pattern variant.  The validator's schema target namespace is passed
explicitly.  Note the explicit-list loop compares each whitespace-separated
token literally against the namespace; it gives no special meaning to
`##targetNamespace` or `##local` tokens inside a list. -/
def matchesNamespace (targetNamespace ns pattern : String) : Bool :=
  if pattern = "##any" then true
  else if pattern = "##other" then ns ≠ targetNamespace
  else if pattern = "##targetNamespace" then ns = targetNamespace
  else if pattern = "##local" then ns = ""
  else (goFieldsStr pattern).any (fun allowed => allowed = ns)

/-- `MatchesWildcard`: parse the wildcard's namespace attribute and match
the element's namespace against it. -/
def MatchesWildcard (elem : Elem) (nspace targetNamespace : String) : Bool :=
  (ParseNamespaceConstraint nspace).Matches elem.nsURI targetNamespace

/-! ## Facets (facet engine, `ParseFacet`) -/

/-- The `FacetValidator` implementations of the facet engine, one
constructor per Go struct. -/
inductive FacetValidator where
  | patternFacet (pattern : String)
  | enumerationFacet (values : List String)
  | lengthFacet (value : Int)
  | minLengthFacet (value : Int)
  | maxLengthFacet (value : Int)
  | minInclusiveFacet (value : String)
  | maxInclusiveFacet (value : String)
  | minExclusiveFacet (value : String)
  | maxExclusiveFacet (value : String)
  | totalDigitsFacet (value : Int)
  | fractionDigitsFacet (value : Int)
  | whiteSpaceFacet (value : String)
deriving DecidableEq, Repr

/-- `strconv.Atoi` (success cases; the source discards the facet when
parsing fails). -/
def goAtoi (s : String) : Option Int := s.toInt?

/-- `ParseFacet`: dispatch on the facet element's local name; integer-valued
facets are dropped when their value does not parse. -/
def ParseFacet (name value : String) : Option FacetValidator :=
  match name with
  | "pattern" => some (.patternFacet value)
  | "enumeration" => some (.enumerationFacet [value])
  | "length" => (goAtoi value).map (.lengthFacet ·)
  | "minLength" => (goAtoi value).map (.minLengthFacet ·)
  | "maxLength" => (goAtoi value).map (.maxLengthFacet ·)
  | "minInclusive" => some (.minInclusiveFacet value)
  | "maxInclusive" => some (.maxInclusiveFacet value)
  | "minExclusive" => some (.minExclusiveFacet value)
  | "maxExclusive" => some (.maxExclusiveFacet value)
  | "totalDigits" => (goAtoi value).map (.totalDigitsFacet ·)
  | "fractionDigits" => (goAtoi value).map (.fractionDigitsFacet ·)
  | "whiteSpace" => some (.whiteSpaceFacet value)
  | _ => none

/-! ## Schema component graph (xsd.go data model)

Go's `Type`, `Content` and `Particle` interfaces become the inductives
`XsdType`, `Content` and `Particle`; nil interface values become `none`.
`AttributeUse`, `ModelGroupKind` and `ProcessContentsMode` are string types
in the source and stay strings here. -/

/-- `Selector` (identity constraints). -/
structure Selector where
  XPath : String
deriving DecidableEq, Repr

/-- `Field` (identity constraints). -/
structure Field where
  XPath : String
deriving DecidableEq, Repr

/-- `IdentityConstraint`: name, kind (`"key"` / `"keyref"` / `"unique"`),
selector, fields, and the referred constraint QName (keyref only). -/
structure IdentityConstraint where
  Name : String
  Kind : String
  Selector : Option Selector
  Fields : List Field
  Refer : QName
deriving DecidableEq, Repr

/-- `AnyAttribute`. -/
structure AnyAttribute where
  Namespace : String
  ProcessContents : String
deriving DecidableEq, Repr

/-- `AnyElement` (the `xs:any` wildcard particle). -/
structure AnyElement where
  Namespace : String
  ProcessContents : String
  MinOcc : Int
  MaxOcc : Int
deriving DecidableEq, Repr

/-- `List` (the list simple-type variant; named `ListType` because `List`
is taken in Lean). -/
structure ListType where
  ItemType : QName
deriving DecidableEq, Repr

/-- `Union` (named `UnionType` here). -/
structure UnionType where
  MemberTypes : List QName
deriving DecidableEq, Repr

/-- `Import`. -/
structure Import where
  Namespace : String
  SchemaLocation : String
deriving DecidableEq, Repr

mutual

/-- Go's `Type` interface: a value is a `*SimpleType` or a `*ComplexType`. -/
inductive XsdType where
  | simple (st : SimpleType)
  | complex (ct : ComplexType)

/-- `SimpleType`: name, base, and at most one of restriction / list /
union (all `none` for the placeholder types the parser emits). -/
inductive SimpleType where
  | mk (qname : QName) (base : QName) (restriction : Option Restriction)
      (listVariant : Option ListType) (unionVariant : Option UnionType)

/-- `ComplexType`. -/
inductive ComplexType where
  | mk (qname : QName) (content : Option Content)
      (attributes : List AttributeDecl) (attributeGroup : List QName)
      (anyAttribute : Option AnyAttribute) (mixed : Bool) (abstract : Bool)

/-- Go's `Content` interface: `SimpleContent`, `ComplexContent`,
`ModelGroup`, `GroupRef` or `AllowAnyContent`. -/
inductive Content where
  | simpleContent (sc : SimpleContent)
  | complexContent (cc : ComplexContent)
  | modelGroup (mg : ModelGroup)
  | groupRef (ref : QName) (minOcc maxOcc : Int)
  | allowAnyContent

/-- `SimpleContent`. -/
inductive SimpleContent where
  | mk (base : QName) (extension : Option Extension)
      (restriction : Option Restriction)

/-- `ComplexContent`. -/
inductive ComplexContent where
  | mk (mixed : Bool) (base : QName) (extension : Option Extension)
      (restriction : Option Restriction)

/-- `Extension`. -/
inductive Extension where
  | mk (base : QName) (attributes : List AttributeDecl)
      (content : Option Content) (anyAttribute : Option AnyAttribute)

/-- `Restriction` (both the simple-type and complex-content variants). -/
inductive Restriction where
  | mk (base : QName) (facets : List FacetValidator)
      (content : Option Content) (attributes : List AttributeDecl)
      (anyAttribute : Option AnyAttribute)

/-- `AttributeDecl`. -/
inductive AttributeDecl where
  | mk (name : QName) (type? : Option XsdType) (use : String)
      (dflt : String) (fixed : String)

/-- `ModelGroup`: kind (`"sequence"` / `"choice"` / `"all"`), particles,
occurrence bounds (`-1` = unbounded). -/
inductive ModelGroup where
  | mk (kind : String) (particles : List Particle) (minOcc maxOcc : Int)

/-- Go's `Particle` interface. -/
inductive Particle where
  | elementDecl (d : ElementDecl)
  | elementRef (ref : QName) (minOcc maxOcc : Int)
  | groupRef (ref : QName) (minOcc maxOcc : Int)
  | anyElement (w : AnyElement)
  | modelGroup (mg : ModelGroup)

/-- `ElementDecl`. -/
inductive ElementDecl where
  | mk (name : QName) (type? : Option XsdType) (minOcc maxOcc : Int)
      (nillable : Bool) (abstract : Bool) (substitutionGroup : QName)
      (dflt : String) (fixed : String)
      (constraints : List IdentityConstraint)

end

/-- `AttributeGroup`. -/
structure AttributeGroup where
  Name : QName
  Attributes : List AttributeDecl

/-- `Schema`: the compiled artifact.  `ImportedSchemas` makes the type
recursive, so it is an inductive with accessor functions below.  The mutex
and the backing document are omitted. -/
inductive Schema where
  | mk (targetNamespace : String)
      (elementDecls : List (QName × ElementDecl))
      (typeDefs : List (QName × XsdType))
      (attributeGroups : List (QName × AttributeGroup))
      (groups : List (QName × ModelGroup))
      (imports : List Import)
      (importedSchemas : List (String × Schema))
      (substitutionGroups : List (QName × List QName))

def Schema.TargetNamespace : Schema → String
  | .mk tns _ _ _ _ _ _ _ => tns

def Schema.ElementDecls : Schema → List (QName × ElementDecl)
  | .mk _ eds _ _ _ _ _ _ => eds

def Schema.TypeDefs : Schema → List (QName × XsdType)
  | .mk _ _ tds _ _ _ _ _ => tds

def Schema.AttributeGroups : Schema → List (QName × AttributeGroup)
  | .mk _ _ _ ags _ _ _ _ => ags

def Schema.Groups : Schema → List (QName × ModelGroup)
  | .mk _ _ _ _ gs _ _ _ => gs

def Schema.Imports : Schema → List Import
  | .mk _ _ _ _ _ imps _ _ => imps

def Schema.ImportedSchemas : Schema → List (String × Schema)
  | .mk _ _ _ _ _ _ impSchemas _ => impSchemas

def Schema.SubstitutionGroups : Schema → List (QName × List QName)
  | .mk _ _ _ _ _ _ _ sgs => sgs

def SimpleType.qname : SimpleType → QName
  | .mk q _ _ _ _ => q

def SimpleType.restriction : SimpleType → Option Restriction
  | .mk _ _ r _ _ => r

def ComplexType.qname : ComplexType → QName
  | .mk q _ _ _ _ _ _ => q

def ComplexType.content : ComplexType → Option Content
  | .mk _ c _ _ _ _ _ => c

def ModelGroup.kind : ModelGroup → String
  | .mk k _ _ _ => k

def ModelGroup.particles : ModelGroup → List Particle
  | .mk _ ps _ _ => ps

def ModelGroup.minOcc : ModelGroup → Int
  | .mk _ _ mn _ => mn

def ModelGroup.maxOcc : ModelGroup → Int
  | .mk _ _ _ mx => mx

def ElementDecl.name : ElementDecl → QName
  | .mk n _ _ _ _ _ _ _ _ _ => n

def ElementDecl.type? : ElementDecl → Option XsdType
  | .mk _ t _ _ _ _ _ _ _ _ => t

def ElementDecl.constraints : ElementDecl → List IdentityConstraint
  | .mk _ _ _ _ _ _ _ _ _ cs => cs

def Restriction.base : Restriction → QName
  | .mk b _ _ _ _ => b

def Extension.base : Extension → QName
  | .mk b _ _ _ => b

def SimpleContent.extension : SimpleContent → Option Extension
  | .mk _ e _ => e

def SimpleContent.restriction : SimpleContent → Option Restriction
  | .mk _ _ r => r

def ComplexContent.extension : ComplexContent → Option Extension
  | .mk _ _ e _ => e

def ComplexContent.restriction : ComplexContent → Option Restriction
  | .mk _ _ _ r => r

/-- `Type.Name()`: both implementations return the struct's `QName`
field. -/
def XsdType.Name : XsdType → QName
  | .simple st => st.qname
  | .complex ct => ct.qname

/-- `XSDNamespace`. -/
def XSDNamespace : String := "http://www.w3.org/2001/XMLSchema"

/-! ## Restriction facet parsing (`Schema.parseRestriction`, facet loop)

Only the facet-collecting component of `parseRestriction` is embedded: the
`sequence`/`choice`/`all`/`group`/`attribute`/`anyAttribute` branches of
the child loop populate `r.Content` / `r.Attributes` / `r.AnyAttribute` and
`continue` without touching `r.Facets`, and the `simpleType` branch either
`continue`s (inline base) or reaches `ParseFacet("simpleType", …) == nil`;
neither contributes a facet, so `r.Facets` of the parsed restriction is
exactly what this loop computes over the child elements in document
order. -/

/-- The child names of the restriction loop whose branches `continue`
before facet parsing. -/
def restrictionStructuralNames : List String :=
  ["sequence", "choice", "all", "group", "attribute", "anyAttribute"]

/-- The in-place merge `enum.Values = append(enum.Values, value)` applied to
the first enumeration facet of the list; `none` when no enumeration facet
is present yet (the `found` flag of the source). -/
def addEnumValue : List FacetValidator → String → Option (List FacetValidator)
  | [], _ => none
  | .enumerationFacet vs :: rest, v => some (.enumerationFacet (vs ++ [v]) :: rest)
  | f :: rest, v => (addEnumValue rest v).map (f :: ·)

/-- The facet accumulation of `parseRestriction`'s child loop. -/
def parseRestrictionFacetsLoop (facets : List FacetValidator)
    (children : List Elem) : List FacetValidator :=
  match children with
  | [] => facets
  | child :: rest =>
    if child.nsURI ≠ XSDNamespace then parseRestrictionFacetsLoop facets rest
    else if child.localName = "simpleType" then parseRestrictionFacetsLoop facets rest
    else if child.localName ∈ restrictionStructuralNames then
      parseRestrictionFacetsLoop facets rest
    else
      match ParseFacet child.localName (child.getAttribute "value") with
      | none => parseRestrictionFacetsLoop facets rest
      | some facet =>
        if child.localName = "enumeration" then
          match addEnumValue facets (child.getAttribute "value") with
          | some updated => parseRestrictionFacetsLoop updated rest
          | none => parseRestrictionFacetsLoop (facets ++ [facet]) rest
        else parseRestrictionFacetsLoop (facets ++ [facet]) rest

/-- The facets of the restriction parsed from `children`. -/
def parseRestrictionFacets (children : List Elem) : List FacetValidator :=
  parseRestrictionFacetsLoop [] children

/-! ## Type compatibility with cycle detection
(`Schema.isTypeCompatibleWithCycleDetection`) -/

/-- The repeated base-type fetch pattern of the compatibility walk:
`X != nil && X.Base.Local != ""` followed by `s.TypeDefs[X.Base]`,
yielding the base type when all three steps succeed. -/
def lookupBase (s : Schema) (base? : Option QName) : Option XsdType :=
  match base? with
  | some b => if b.Local ≠ "" then lookupQ s.TypeDefs b else none
  | none => none

theorem lookupQ_value_mem {α : Type} {l : List (QName × α)} {q : QName}
    {v : α} (h : lookupQ l q = some v) : v ∈ l.map Prod.snd := by
  induction l with
  | nil => simp [lookupQ] at h
  | cons hd tl ih =>
    rw [lookupQ] at h
    split at h
    · obtain rfl := Option.some.inj h
      simp
    · simp [ih h]

theorem lookupBase_value_mem {s : Schema} {base? : Option QName}
    {v : XsdType} (h : lookupBase s base? = some v) :
    v ∈ s.TypeDefs.map Prod.snd := by
  match base? with
  | none => simp [lookupBase] at h
  | some b =>
    rw [lookupBase] at h
    by_cases hl : b.Local ≠ ""
    · rw [if_pos hl] at h
      exact lookupQ_value_mem h
    · rw [if_neg hl] at h
      exact absurd h (by simp)

/-- The names of the types stored in `s.TypeDefs` (targets of base-type
fetches), as a finite set: the decreasing measure of the compatibility
walk. -/
def typeDefValueNames (s : Schema) : Finset QName :=
  ((s.TypeDefs.map Prod.snd).map XsdType.Name).toFinset

theorem compat_measure_lt {s : Schema} {aName bName : QName}
    {visited : Finset QName} (hb : bName ∈ typeDefValueNames s)
    (ha : aName ∉ visited) :
    (insert bName (typeDefValueNames s) \ insert aName visited).card <
      (insert aName (typeDefValueNames s) \ visited).card := by
  apply Finset.card_lt_card
  rw [Finset.ssubset_iff_of_subset]
  · refine ⟨aName, Finset.mem_sdiff.mpr ⟨Finset.mem_insert_self _ _, ha⟩, ?_⟩
    simp
  · intro x hx
    rw [Finset.mem_sdiff] at hx ⊢
    constructor
    · rcases Finset.mem_insert.mp hx.1 with h | h
      · exact Finset.mem_insert_of_mem (h ▸ hb)
      · exact Finset.mem_insert_of_mem h
    · exact fun hm => hx.2 (Finset.mem_insert_of_mem hm)

/-- The base-type the compatibility walk follows from `actual`: the switch
body of `isTypeCompatibleWithCycleDetection`.  For complex content the
extension base is fetched first and, when that fetch fails at any of its
three steps, the restriction base; likewise for simple content; a simple
type follows its restriction base; every other shape derives from
nothing. -/
def derivationBase (s : Schema) (actual : XsdType) : Option XsdType :=
  match actual with
  | .complex ct =>
    match ct.content with
    | some (.complexContent cc) =>
      match lookupBase s (cc.extension.map Extension.base) with
      | some baseType => some baseType
      | none => lookupBase s (cc.restriction.map Restriction.base)
    | some (.simpleContent sc) =>
      match lookupBase s (sc.extension.map Extension.base) with
      | some baseType => some baseType
      | none => lookupBase s (sc.restriction.map Restriction.base)
    | _ => none
  | .simple st => lookupBase s (st.restriction.map Restriction.base)

theorem derivationBase_value_mem {s : Schema} {actual v : XsdType}
    (h : derivationBase s actual = some v) : v ∈ s.TypeDefs.map Prod.snd := by
  unfold derivationBase at h
  split at h
  all_goals try split at h
  all_goals try split at h
  all_goals first
    | exact lookupBase_value_mem h
    | (obtain rfl := Option.some.inj h
       exact lookupBase_value_mem (by assumption))
    | simp at h

/-- `Schema.isTypeCompatibleWithCycleDetection`: same name is compatible;
a revisited name is not; otherwise follow the (first applicable)
extension/restriction base of the actual type (`derivationBase`).  Nil
`Type` interface values are `none`. -/
def isTypeCompatibleWithCycleDetection (s : Schema)
    (actualType expectedType : Option XsdType)
    (visited : Finset QName) : Bool :=
  match actualType, expectedType with
  | none, _ => false
  | some _, none => false
  | some actual, some expected =>
    if actual.Name = expected.Name then true
    else if hvis : actual.Name ∈ visited then false
    else
      match hb : derivationBase s actual with
      | some baseType =>
        isTypeCompatibleWithCycleDetection s (some baseType) (some expected)
          (insert actual.Name visited)
      | none => false
termination_by
  match actualType with
  | some a => (insert a.Name (typeDefValueNames s) \ visited).card
  | none => 0
decreasing_by
  exact compat_measure_lt (List.mem_toFinset.mpr
    (List.mem_map_of_mem XsdType.Name (derivationBase_value_mem hb))) hvis

/-- `Schema.isTypeCompatible`: the walk started with an empty visited
set. -/
def isTypeCompatible (s : Schema) (actualType expectedType : Option XsdType) :
    Bool :=
  isTypeCompatibleWithCycleDetection s actualType expectedType ∅

/-! ## Substitution groups (`Schema.isSubstitutableFor`) -/

/-- The body of the member-match inside `isSubstitutableFor`: missing
declarations allow substitution; otherwise the compatibility verdict, with
the backward-compatibility fallback that substitution is allowed whenever
both declared types are non-nil. -/
def substitutionMemberVerdict (s : Schema)
    (actualElement expectedElement : QName) : Bool :=
  match lookupQ s.ElementDecls actualElement,
      lookupQ s.ElementDecls expectedElement with
  | none, _ => true
  | some _, none => true
  | some actualDecl, some expectedDecl =>
    if isTypeCompatible s actualDecl.type? expectedDecl.type? then true
    else actualDecl.type?.isSome && expectedDecl.type?.isSome

/-- `Schema.isSubstitutableFor`: if `actualElement` is listed among the
substitution-group members of `expectedElement`, the member verdict is
returned directly (without consulting imports); otherwise the imported
schemas are tried recursively. -/
def Schema.isSubstitutableFor (s : Schema)
    (actualElement expectedElement : QName) : Bool :=
  match hmem : lookupQ s.SubstitutionGroups expectedElement with
  | some members =>
    if actualElement ∈ members then
      substitutionMemberVerdict s actualElement expectedElement
    else
      s.ImportedSchemas.attach.any (fun sub =>
        Schema.isSubstitutableFor sub.1.2 actualElement expectedElement)
  | none =>
    s.ImportedSchemas.attach.any (fun sub =>
      Schema.isSubstitutableFor sub.1.2 actualElement expectedElement)
termination_by sizeOf s
decreasing_by
  all_goals
    have h1 := List.sizeOf_lt_of_mem sub.2
    obtain ⟨⟨loc, subSchema⟩, hmem2⟩ := sub
    cases s
    simp only [Schema.ImportedSchemas] at h1
    simp_arith at h1 ⊢
    omega

/-- `ModelGroup.elementMatchesParticle`: does `elem` match `particle` at a
single position.  The `GroupRef` branch calls the full content-model
matcher `group.Validate`, which is outside the embedded fragment and is
passed in as the parameter `groupValidate`. -/
def elementMatchesParticle (s : Schema)
    (groupValidate : ModelGroup → Elem → List Violation)
    (elem : Elem) (particle : Particle) : Bool :=
  match particle with
  | .elementDecl d =>
    let elemQName : QName := ⟨elem.nsURI, elem.localName⟩
    if elemQName = d.name then true
    else s.isSubstitutableFor elemQName d.name
  | .elementRef ref _ _ =>
    let elemQName : QName := ⟨elem.nsURI, elem.localName⟩
    if elemQName = ref then true
    else s.isSubstitutableFor elemQName ref
  | .groupRef ref _ _ =>
    match lookupQ s.Groups ref with
    | some group => (groupValidate group elem).isEmpty
    | none => false
  | .anyElement w => MatchesWildcard elem w.Namespace s.TargetNamespace
  | .modelGroup (.mk _ inner _ _) =>
    inner.attach.any (fun gp => elementMatchesParticle s groupValidate elem gp.1)
termination_by sizeOf particle
decreasing_by
  have h1 := List.sizeOf_lt_of_mem gp.2
  simp_arith
  omega

/-! ## Particle resolution with cycle detection
(`Schema.resolveParticlesWithVisited`)

The Go function threads one mutable visited map through the walk, inserting
a group's QName before expanding it and deleting it afterwards; since every
expansion restores the map, each loop iteration observes the map that the
call received, and the functional embedding passes exactly that set. -/

/-- The keys of `s.Groups`: the decreasing measure of the resolver. -/
def groupKeys (s : Schema) : Finset QName := (s.Groups.map Prod.fst).toFinset

theorem lookupQ_mem_keys {α : Type} {l : List (QName × α)} {q : QName}
    {v : α} (h : lookupQ l q = some v) : q ∈ l.map Prod.fst := by
  induction l with
  | nil => simp [lookupQ] at h
  | cons hd tl ih =>
    rw [lookupQ] at h
    by_cases hk : hd.1 = q
    · simp [hk]
    · simp only [hk, if_false] at h
      simp [ih h]

theorem groupKeys_sdiff_card_lt {s : Schema} {r : QName}
    {visited : Finset QName} (hk : r ∈ groupKeys s) (hv : r ∉ visited) :
    (groupKeys s \ insert r visited).card < (groupKeys s \ visited).card := by
  apply Finset.card_lt_card
  rw [Finset.ssubset_iff_of_subset]
  · exact ⟨r, Finset.mem_sdiff.mpr ⟨hk, hv⟩, by simp⟩
  · intro x hx
    rw [Finset.mem_sdiff] at hx ⊢
    exact ⟨hx.1, fun hm => hx.2 (Finset.mem_insert_of_mem hm)⟩

/-- `Schema.resolveParticlesWithVisited`: inline every resolvable group
reference; keep a reference already being expanded (cycle) or without a
definition; recurse into nested model groups. -/
def resolveParticlesWithVisited (s : Schema) (particles : List Particle)
    (visited : Finset QName) : List Particle :=
  match particles with
  | [] => []
  | p :: rest =>
    match p with
    | .groupRef ref mn mx =>
      if hvis : ref ∈ visited then
        .groupRef ref mn mx :: resolveParticlesWithVisited s rest visited
      else
        match hg : lookupQ s.Groups ref with
        | some group =>
          Particle.modelGroup (ModelGroup.mk group.kind
              (resolveParticlesWithVisited s group.particles (insert ref visited))
              (if mn = 0 ∧ mx = 0 then group.minOcc else mn)
              (if mn = 0 ∧ mx = 0 then group.maxOcc else mx))
            :: resolveParticlesWithVisited s rest visited
        | none =>
          .groupRef ref mn mx :: resolveParticlesWithVisited s rest visited
    | .modelGroup (.mk kind inner mn mx) =>
      Particle.modelGroup (ModelGroup.mk kind
          (resolveParticlesWithVisited s inner visited) mn mx)
        :: resolveParticlesWithVisited s rest visited
    | other => other :: resolveParticlesWithVisited s rest visited
termination_by ((groupKeys s \ visited).card, sizeOf particles)
decreasing_by
  · apply Prod.Lex.right
    simp_arith
  · apply Prod.Lex.left
    exact groupKeys_sdiff_card_lt (List.mem_toFinset.mpr (lookupQ_mem_keys hg)) hvis
  · apply Prod.Lex.right
    simp_arith
  · apply Prod.Lex.right
    simp_arith
  · apply Prod.Lex.right
    simp_arith
  · apply Prod.Lex.right
    simp_arith
  · apply Prod.Lex.right
    simp_arith

/-- `Schema.resolveParticles`: resolution started with an empty visited
set. -/
def resolveParticles (s : Schema) (particles : List Particle) : List Particle :=
  resolveParticlesWithVisited s particles ∅

/-! ## Identity-constraint validator (identity_constraints.go)

`IdentityConstraintValidator` is a mutable record in Go; here its two maps
are the state threaded through `Validate`, which returns the violations
together with the state as left behind by the call. -/

/-- The state of an `IdentityConstraintValidator`: constraint registry and
the collected key values (`constraint name → joined field values →
elements`). -/
structure IdentityConstraintValidator where
  constraints : List (String × IdentityConstraint)
  keyValues : List (String × List (String × List Elem))

/-- `NewIdentityConstraintValidator`. -/
def NewIdentityConstraintValidator : IdentityConstraintValidator := ⟨[], []⟩

/-- `AddConstraint`. -/
def IdentityConstraintValidator.AddConstraint
    (v : IdentityConstraintValidator) (c : IdentityConstraint) :
    IdentityConstraintValidator :=
  ⟨insertS v.constraints c.Name c, insertS v.keyValues c.Name []⟩

/-- `getElementTextContent`: concatenation of the element's text nodes in
order. -/
def getElementTextContent (elem : Elem) : String :=
  String.join elem.textNodes

/-- `strings.TrimSpace`. -/
def goTrimSpace (l : List Char) : List Char :=
  ((l.dropWhile goIsSpace).reverse.dropWhile goIsSpace).reverse

/-- `strings.Split(s, sep)` for a one-character separator: all fragments,
empties kept, `[""]` for the empty string. -/
def splitOnChar (sep : Char) : List Char → List (List Char)
  | [] => [[]]
  | c :: rest =>
    if c = sep then [] :: splitOnChar sep rest
    else
      match splitOnChar sep rest with
      | [] => [[c]]
      | h :: t => (c :: h) :: t

/-- `strings.Split(s, sep)` for the two-character separator `/@`. -/
def splitOnTwoChars (a b : Char) : List Char → List (List Char)
  | [] => [[]]
  | [c] => [[c]]
  | c1 :: c2 :: rest =>
    if c1 = a ∧ c2 = b then [] :: splitOnTwoChars a b rest
    else
      match splitOnTwoChars a b (c2 :: rest) with
      | [] => [[c1]]
      | h :: t => (c1 :: h) :: t

/-- `strings.Contains(s, substr)` for character-list strings. -/
def containsSeq (pat : List Char) (l : List Char) : Bool :=
  pat.isPrefixOf l ||
    match l with
    | [] => false
    | _ :: rest => containsSeq pat rest

/-- One step of `removeNamespacePrefixes`:
`if idx := strings.Index(part, ":"); idx > 0 && !strings.HasPrefix(part, "@")`
drop through the first colon. -/
def stripStepQualifier (part : List Char) : List Char :=
  if ':' ∈ part ∧ part.head? ≠ some ':' ∧ part.head? ≠ some '@' then
    (part.dropWhile (fun c => c ≠ ':')).tail
  else part

/-- `removeNamespacePrefixes`: split the XPath on `/`, strip each step's
qualifier, rejoin. -/
def removeNamespacePrefixes (xpath : List Char) : List Char :=
  List.intercalate ['/'] ((splitOnChar '/' xpath).map stripStepQualifier)

/-- `findMatchingChildren`: walk the remaining steps; `.` stays on the
current element; otherwise descend into same-named children, collecting the
elements reached after the last step (accumulation into `*results` becomes
list concatenation in traversal order). -/
def findMatchingChildren (elem : Elem) (steps : List (List Char)) : List Elem :=
  match steps with
  | [] => [elem]
  | currentStep :: remainingSteps =>
    if currentStep = ['.'] then findMatchingChildren elem remainingSteps
    else
      elem.children.flatMap (fun child =>
        if child.localName = String.mk currentStep then
          if remainingSteps = [] then [child]
          else findMatchingChildren child remainingSteps
        else [])
termination_by steps.length
decreasing_by
  · simp_arith
  · simp_arith

/-- `findMatchingDescendants`: every descendant-or-self with the given
local name, in document order. -/
def findMatchingDescendants (elem : Elem) (name : List Char) : List Elem :=
  match elem with
  | .mk ln ns as ch ts =>
    (if ln = String.mk name then [Elem.mk ln ns as ch ts] else []) ++
      ch.attach.flatMap (fun child => findMatchingDescendants child.1 name)
termination_by sizeOf elem
decreasing_by
  have h1 := List.sizeOf_lt_of_mem child.2
  simp_arith
  omega

/-- `evaluateSimpleXPath`: trim, strip namespace qualifiers, handle an
absolute leading `/`, then either descendant search (`.//` or `//`) with an
optional child-path continuation, or direct child-path navigation. -/
def evaluateSimpleXPath (root : Elem) (xpath : String) : List Elem :=
  let xp0 := goTrimSpace xpath.data
  let xp1 := removeNamespacePrefixes xp0
  let xp2 := if xp1.head? = some '/' then xp1.tail else xp1
  let searchDescendants : Bool :=
    xp2.take 3 = ['.', '/', '/'] ∨ xp2.take 2 = ['/', '/']
  let xp3 :=
    if xp2.take 3 = ['.', '/', '/'] then xp2.drop 3
    else if xp2.take 2 = ['/', '/'] then xp2.drop 2
    else xp2
  let steps := splitOnChar '/' xp3
  if searchDescendants then
    let results := findMatchingDescendants root (steps.headD [])
    if steps.length > 1 then
      results.flatMap (fun e => findMatchingChildren e steps.tail)
    else results
  else findMatchingChildren root steps

/-- `evaluateFieldXPath`: `@name` reads the attribute; `.` / `text()` read
the text content; a plain element path reads the first matched element's
text; `path/@name` reads the first matched element's attribute; everything
else yields the empty string. -/
def evaluateFieldXPath (node : Elem) (xpath : String) : String :=
  let xp := goTrimSpace xpath.data
  if xp.head? = some '@' then node.getAttribute (String.mk xp.tail)
  else if xp = ['.'] ∨ xp = ['t', 'e', 'x', 't', '(', ')'] then
    getElementTextContent node
  else if ¬ ('@' ∈ xp) ∧ ¬ (containsSeq ['(', ')'] xp) then
    match evaluateSimpleXPath node (String.mk xp) with
    | e :: _ => getElementTextContent e
    | [] => ""
  else if containsSeq ['/', '@'] xp then
    match splitOnTwoChars '/' '@' xp with
    | [p0, p1] =>
      match evaluateSimpleXPath node (String.mk p0) with
      | e :: _ => e.getAttribute (String.mk p1)
      | [] => ""
    | _ => ""
  else ""

/-- `evaluateSelector`: nil selector or empty XPath select nothing;
otherwise evaluate from the document element.  (In the `Validate` pipeline
the document element is always present; a nil one selects nothing here.) -/
def evaluateSelector (doc : Document) (selector : Option Selector) :
    List Elem :=
  match selector with
  | none => []
  | some sel =>
    if sel.XPath = "" then []
    else
      match doc.documentElement with
      | some root => evaluateSimpleXPath root sel.XPath
      | none => []

/-- `extractFieldValues`: one value per field, in order. -/
def extractFieldValues (node : Elem) (fields : List Field) : List String :=
  fields.map (fun f => evaluateFieldXPath node f.XPath)

/-- First pass of `IdentityConstraintValidator.Validate`, one selected node
of a key/unique constraint: record the joined field values, reporting
`cvc-identity-constraint.4.1` on a duplicate (the duplicate node is still
appended), then `cvc-identity-constraint.4.2.2` for each null field of a
key. -/
def icRecordNode (name : String) (c : IdentityConstraint)
    (acc : List Violation × List (String × List (String × List Elem)))
    (node : Elem) :
    List Violation × List (String × List (String × List Elem)) :=
  let fieldValues := extractFieldValues node c.Fields
  if fieldValues = [] then acc
  else
    let keyValue := String.intercalate "|" fieldValues
    let viols := acc.1
    let kv := acc.2
    let kvName := (lookupS kv name).getD []
    let step : List Violation × List (String × List Elem) :=
      match lookupS kvName keyValue with
      | some existingNodes =>
        (viols ++ [⟨some node, "", "cvc-identity-constraint.4.1",
            "Duplicate " ++ c.Kind ++ " constraint \x27" ++ name ++
              "\x27 value: " ++ keyValue, [], ""⟩],
          insertS kvName keyValue (existingNodes ++ [node]))
      | none => (viols, insertS kvName keyValue [node])
    let nullViols : List Violation :=
      if c.Kind = "key" then
        fieldValues.enum.filterMap (fun p =>
          if p.2 = "" then
            some ⟨some node, "", "cvc-identity-constraint.4.2.2",
              "Key constraint \x27" ++ name ++ "\x27 field " ++
                toString (p.1 + 1) ++ " cannot be null", [], ""⟩
          else none)
      else []
    (step.1 ++ nullViols, insertS kv name step.2)

/-- Second pass of `Validate`, one keyref constraint: unknown referred
constraints report `src-identity-constraint.2.2.2`; otherwise every
selected node whose joined field values are not among the referred
constraint's recorded keys reports `cvc-identity-constraint.4.3`. -/
def icKeyrefPass (doc : Document)
    (constraints : List (String × IdentityConstraint))
    (kv : List (String × List (String × List Elem)))
    (name : String) (c : IdentityConstraint) : List Violation :=
  let selectedNodes := evaluateSelector doc c.Selector
  match lookupS constraints c.Refer.Local with
  | none =>
    [⟨none, "", "src-identity-constraint.2.2.2",
      "Keyref \x27" ++ name ++ "\x27 refers to unknown constraint \x27" ++
        c.Refer.Local ++ "\x27", [], ""⟩]
  | some referencedConstraint =>
    selectedNodes.filterMap (fun node =>
      let fieldValues := extractFieldValues node c.Fields
      if fieldValues = [] then none
      else
        let keyValue := String.intercalate "|" fieldValues
        match lookupS ((lookupS kv c.Refer.Local).getD []) keyValue with
        | some _ => none
        | none =>
          some ⟨some node, "", "cvc-identity-constraint.4.3",
            "Keyref \x27" ++ name ++ "\x27 value \x27" ++ keyValue ++
              "\x27 does not match any " ++ referencedConstraint.Kind ++
              " \x27" ++ c.Refer.Local ++ "\x27", [], ""⟩)

/-- `IdentityConstraintValidator.Validate`: first pass collects key/unique
values into `keyValues` (which persists in the returned state — nothing
resets it), second pass checks keyrefs against the collected keys. -/
def IdentityConstraintValidator.Validate (v : IdentityConstraintValidator)
    (doc : Document) : List Violation × IdentityConstraintValidator :=
  let firstPass :=
    v.constraints.foldl (fun acc nc =>
      if nc.2.Kind = "key" ∨ nc.2.Kind = "unique" then
        (evaluateSelector doc nc.2.Selector).foldl (icRecordNode nc.1 nc.2) acc
      else acc) (([] : List Violation), v.keyValues)
  let keyrefViols :=
    v.constraints.flatMap (fun nc =>
      if nc.2.Kind = "keyref" then
        icKeyrefPass doc v.constraints firstPass.2 nc.1 nc.2
      else [])
  (firstPass.1 ++ keyrefViols, ⟨v.constraints, firstPass.2⟩)

/-! ## Instance validator (`Validator`, instance-validator file) -/

/-- The `Validator` record: ID registry, IDREF registry, accumulated
violations, identity-constraint validator.  The schema pointer is not part
of the state (none of the embedded methods mutate it). -/
structure Validator where
  ids : List (String × Elem)
  idRefs : List (String × Elem)
  violations : List Violation
  idConstraints : IdentityConstraintValidator

/-- `NewValidator`: fresh maps; all identity constraints of the schema's
element declarations are registered. -/
def NewValidator (schema : Schema) : Validator :=
  { ids := [], idRefs := [], violations := [],
    idConstraints :=
      (schema.ElementDecls.flatMap (fun d => d.2.constraints)).foldl
        IdentityConstraintValidator.AddConstraint
        NewIdentityConstraintValidator }

/-- The IDREF-candidate attribute names of `collectIDsAndRefs`. -/
def idrefAttrNames : List String :=
  ["target", "ref", "idref", "IDREF", "idlocation", "sendid"]

/-- The per-attribute body of `collectIDsAndRefs`: an `id`/`ID` attribute
is collected as an ID (first occurrence wins, duplicates report
`cvc-id.2`); an attribute named like an IDREF with a non-empty value
overwrites the IDREF registry entry for that value. -/
def collectAttrStep (v : Validator) (elem : Elem) (attr : Attr) : Validator :=
  let attrName := attr.localName
  let attrValue := attr.value
  let v1 :=
    if attrName = "id" ∨ attrName = "ID" then
      match lookupS v.ids attrValue with
      | some _ =>
        { v with violations := v.violations ++
            [⟨some elem, attrName, "cvc-id.2",
              "Duplicate ID value \x27" ++ attrValue ++ "\x27", [],
              attrValue⟩] }
      | none => { v with ids := insertS v.ids attrValue elem }
    else v
  if attrName ∈ idrefAttrNames ∧ attrValue ≠ "" then
    { v1 with idRefs := insertS v1.idRefs attrValue elem }
  else v1

mutual

/-- `Validator.collectIDsAndRefs`: process the element's attributes, then
recurse through the children in document order. -/
def collectIDsAndRefs (v : Validator) (elem : Elem) : Validator :=
  match elem with
  | .mk ln ns as ch ts =>
    collectChildren
      (as.foldl (fun acc a => collectAttrStep acc (Elem.mk ln ns as ch ts) a) v)
      ch

/-- The child loop of `collectIDsAndRefs`. -/
def collectChildren (v : Validator) (es : List Elem) : Validator :=
  match es with
  | [] => v
  | e :: rest => collectChildren (collectIDsAndRefs v e) rest

end

/-- `Validator.validateIDREFs`: one `cvc-id.1` per IDREF-registry entry
whose value has no ID binding. -/
def validateIDREFs (v : Validator) : Validator :=
  { v with violations := v.violations ++
      v.idRefs.filterMap (fun p =>
        match lookupS v.ids p.1 with
        | some _ => none
        | none =>
          some ⟨some p.2, "", "cvc-id.1",
            "There is no ID/IDREF binding for IDREF \x27" ++ p.1 ++ "\x27",
            [], p.1⟩) }

/-- The `xsd-null-document` violation. -/
def xsdNullDocumentViolation : Violation :=
  ⟨none, "", "xsd-null-document", "Document is null", [], ""⟩

/-- The `xsd-no-root` violation. -/
def xsdNoRootViolation : Violation :=
  ⟨none, "", "xsd-no-root", "Document has no root element", [], ""⟩

/-- `Validator.Validate`, with the element checker
(`v.validateElement(root, nil)` — the content-model / attribute / facet
orchestrator, outside the embedded fragment) passed as the parameter
`checkElement`.  Nil documents and documents without a root element
short-circuit with a single synthetic violation before any state is
touched; otherwise `ids`, `idRefs` and `violations` are reset (but
`idConstraints` is not), IDs/IDREFs are collected, the root is validated,
IDREFs are checked, and the identity-constraint violations are appended. -/
def ValidateWith (checkElement : Elem → List Violation) (v : Validator)
    (doc : Option Document) : List Violation × Validator :=
  match doc with
  | none => ([xsdNullDocumentViolation], v)
  | some d =>
    match d.documentElement with
    | none => ([xsdNoRootViolation], v)
    | some root =>
      let v1 := { v with violations := [], ids := [], idRefs := [] }
      let v2 := collectIDsAndRefs v1 root
      let v3 := { v2 with violations := v2.violations ++ checkElement root }
      let v4 := validateIDREFs v3
      let idResult := v4.idConstraints.Validate d
      let v5 := { v4 with
        violations := v4.violations ++ idResult.1
        idConstraints := idResult.2 }
      (v5.violations, v5)

/-!
# Theorems

One theorem per checked claim, with supporting lemmas, witnesses and
counterexamples.
-/

/-- C8: `Validator.Validate` short-circuits on degenerate input with
exactly one violation — a nil document yields only the
`xsd-null-document` violation and a document without a root element yields
only the `xsd-no-root` violation, with the validator state untouched
(no other validation is performed), whatever the element checker and the
prior state are. -/
theorem validate_short_circuit_degenerate
    (checkElement : Elem → List Violation) (v : Validator) :
    ValidateWith checkElement v none = ([xsdNullDocumentViolation], v) ∧
    xsdNullDocumentViolation.Code = "xsd-null-document" ∧
    ValidateWith checkElement v (some ⟨none⟩) = ([xsdNoRootViolation], v) ∧
    xsdNoRootViolation.Code = "xsd-no-root" :=
  ⟨rfl, rfl, rfl, rfl⟩

/-- Witness for C8 at a concrete validator state and element checker. -/
theorem validate_short_circuit_degenerate_witness :
    ValidateWith (fun _ => []) ⟨[], [], [], ⟨[], []⟩⟩ none =
      ([xsdNullDocumentViolation], ⟨[], [], [], ⟨[], []⟩⟩) :=
  (validate_short_circuit_degenerate (fun _ => []) ⟨[], [], [], ⟨[], []⟩⟩).1

/-! ### C9: built-in type lookup strips the namespace qualifier -/

theorem data_append' (a b : String) : (a ++ b).data = a.data ++ b.data := rfl

theorem data_append_colon (p n : String) :
    (p ++ ":" ++ n).data = p.data ++ ':' :: n.data := by
  have hcol : ":".data = [':'] := by decide
  rw [data_append', data_append', hcol, List.append_assoc]
  rfl

theorem dropWhile_append_all {α : Type} {p : α → Bool} {l1 : List α}
    (l2 : List α) (h : ∀ c ∈ l1, p c) :
    (l1 ++ l2).dropWhile p = l2.dropWhile p := by
  induction l1 with
  | nil => rfl
  | cons a rest ih =>
    rw [List.cons_append, List.dropWhile]
    rw [h a (by simp)]
    exact ih (fun c hc => h c (by simp [hc]))

theorem stripToLocal_of_no_colon {n : String} (hn : ':' ∉ n.data) :
    stripToLocal n = n := by
  unfold stripToLocal
  rw [if_neg hn]

theorem stripToLocal_prefixed {p n : String} (hp : ':' ∉ p.data)
    (hn : ':' ∉ n.data) : stripToLocal (p ++ ":" ++ n) = n := by
  unfold stripToLocal
  rw [data_append_colon]
  rw [if_pos (by simp)]
  have hdrop : (p.data ++ ':' :: n.data).dropWhile (fun c => c ≠ ':') =
      ':' :: n.data := by
    rw [dropWhile_append_all _ (fun c hc => by
      simp only [decide_eq_true_eq]
      exact fun heq => hp (heq ▸ hc))]
    rw [List.dropWhile]
    simp
  rw [hdrop]
  rfl

/-- C9: built-in type lookup strips everything up to and including the
first colon before consulting the registry: for any colon-free prefix `p`
and colon-free name `n`, looking up `p:n` returns the same registry entry
(and the same validator) as looking up `n` — independently of what
namespace `p` might denote, which the lookup never consults; and any name
whose stripped local part is not a registry key yields `none`. -/
theorem builtin_lookup_strips_qualifier :
    (∀ p n : String, ':' ∉ p.data → ':' ∉ n.data →
      GetBuiltinType (p ++ ":" ++ n) = GetBuiltinType n) ∧
    (∀ name : String, lookupS builtinTypes (stripToLocal name) = none →
      GetBuiltinType name = none) ∧
    (∀ p n : String, ':' ∉ p.data → ':' ∉ n.data →
      GetBuiltinTypeValidator (p ++ ":" ++ n) = GetBuiltinTypeValidator n) := by
  refine ⟨?_, ?_, ?_⟩
  · intro p n hp hn
    unfold GetBuiltinType
    rw [stripToLocal_prefixed hp hn, stripToLocal_of_no_colon hn]
  · intro name h
    unfold GetBuiltinType
    exact h
  · intro p n hp hn
    unfold GetBuiltinTypeValidator
    rw [stripToLocal_prefixed hp hn, stripToLocal_of_no_colon hn]

/-- Witness for C9: `xs:int` resolves like `int`, and a non-built-in local
part yields `none`. -/
theorem builtin_lookup_strips_qualifier_witness :
    GetBuiltinType ("xs" ++ ":" ++ "int") = GetBuiltinType "int" ∧
    GetBuiltinType "noSuchType" = none :=
  ⟨builtin_lookup_strips_qualifier.1 "xs" "int" (by decide) (by decide),
    builtin_lookup_strips_qualifier.2.1 "noSuchType" (by decide)⟩

/-! ### C5: the type-compatibility walk refuses revisited names -/

/-- C5: the substitution-group type-compatibility walk keeps a visited set
keyed by type QName.  When the walk reaches a type whose QName is already
in the visited set — as happens exactly when a cyclic derivation chain
revisits a name without having reached the expected type, whose own name
can never be in the set because name equality is checked before marking —
it returns `false` (not compatible) instead of recursing, so it never
returns `true` from inside a cycle.  Termination on every input, cyclic
chains included, is witnessed by `isTypeCompatibleWithCycleDetection` being
a total function (its recursion measure shrinks the set of type names not
yet visited). -/
theorem typeCompat_revisit_returns_false (s : Schema)
    (actual expected : XsdType) (visited : Finset QName)
    (hmem : actual.Name ∈ visited) (hne : actual.Name ≠ expected.Name) :
    isTypeCompatibleWithCycleDetection s (some actual) (some expected)
      visited = false := by
  rw [isTypeCompatibleWithCycleDetection]
  rw [if_neg hne]
  rw [dif_pos hmem]

/-- Witness for C5 at a concrete cyclic-looking state: the name of the
actual type is already in the visited set and differs from the expected
name, and the walk answers `false`. -/
theorem typeCompat_revisit_returns_false_witness :
    isTypeCompatibleWithCycleDetection
      (Schema.mk "" [] [] [] [] [] [] [])
      (some (.simple (.mk ⟨"", "a"⟩ ⟨"", ""⟩ none none none)))
      (some (.simple (.mk ⟨"", "b"⟩ ⟨"", ""⟩ none none none)))
      {⟨"", "a"⟩} = false :=
  typeCompat_revisit_returns_false _ _ _ _ (by decide) (by decide)

/-! ### C3: enumeration facets collapse into one facet (values concatenated) -/

/-- Is a facet the enumeration facet? -/
def isEnumFacet : FacetValidator → Bool
  | .enumerationFacet _ => true
  | _ => false

/-- The `value` attributes of the XSD-namespace `<enumeration>` children,
in document order. -/
def enumChildValues (children : List Elem) : List String :=
  children.filterMap (fun child =>
    if child.nsURI = XSDNamespace ∧ child.localName = "enumeration" then
      some (child.getAttribute "value")
    else none)

theorem parseFacet_enum_name {name value : String} {vs : List String}
    (h : ParseFacet name value = some (.enumerationFacet vs)) :
    name = "enumeration" := by
  unfold ParseFacet at h
  split at h
  all_goals simp_all [Option.map_eq_some']

theorem isEnumFacet_eq_true {f : FacetValidator} (h : isEnumFacet f = true) :
    ∃ vs, f = .enumerationFacet vs := by
  cases f <;> simp_all [isEnumFacet]

theorem parseFacet_not_enum {name value : String} {f : FacetValidator}
    (h : ParseFacet name value = some f) (hname : name ≠ "enumeration") :
    isEnumFacet f = false := by
  by_contra hcon
  obtain ⟨vs, rfl⟩ := isEnumFacet_eq_true (by simpa using hcon)
  exact hname (parseFacet_enum_name h)

theorem addEnumValue_none_iff (facets : List FacetValidator) (v : String) :
    addEnumValue facets v = none ↔ facets.filter isEnumFacet = [] := by
  induction facets with
  | nil => simp [addEnumValue]
  | cons f rest ih => cases f <;> simp_all [addEnumValue, isEnumFacet]

theorem addEnumValue_some_filter (v : String) :
    ∀ (facets tailF : List FacetValidator) (vs : List String),
    facets.filter isEnumFacet = .enumerationFacet vs :: tailF →
    ∃ updated, addEnumValue facets v = some updated ∧
      updated.filter isEnumFacet = .enumerationFacet (vs ++ [v]) :: tailF := by
  intro facets
  induction facets with
  | nil => intro tailF vs h; simp at h
  | cons f rest ih =>
    intro tailF vs h
    cases f with
    | enumerationFacet ws =>
      rw [List.filter_cons_of_pos (by simp [isEnumFacet])] at h
      have h1 := List.head_eq_of_cons_eq h
      have h2 := List.tail_eq_of_cons_eq h
      injection h1 with hws
      subst hws
      refine ⟨.enumerationFacet (ws ++ [v]) :: rest, by simp [addEnumValue], ?_⟩
      rw [List.filter_cons_of_pos (by simp [isEnumFacet])]
      exact congrArg _ h2
    | patternFacet p =>
      rw [List.filter_cons_of_neg (by simp [isEnumFacet])] at h
      obtain ⟨updated, hu, hf⟩ := ih tailF vs h
      refine ⟨.patternFacet p :: updated, by simp [addEnumValue, hu], ?_⟩
      rw [List.filter_cons_of_neg (by simp [isEnumFacet])]
      exact hf
    | lengthFacet a =>
      rw [List.filter_cons_of_neg (by simp [isEnumFacet])] at h
      obtain ⟨updated, hu, hf⟩ := ih tailF vs h
      exact ⟨.lengthFacet a :: updated, by simp [addEnumValue, hu],
        by rw [List.filter_cons_of_neg (by simp [isEnumFacet])]; exact hf⟩
    | minLengthFacet a =>
      rw [List.filter_cons_of_neg (by simp [isEnumFacet])] at h
      obtain ⟨updated, hu, hf⟩ := ih tailF vs h
      exact ⟨.minLengthFacet a :: updated, by simp [addEnumValue, hu],
        by rw [List.filter_cons_of_neg (by simp [isEnumFacet])]; exact hf⟩
    | maxLengthFacet a =>
      rw [List.filter_cons_of_neg (by simp [isEnumFacet])] at h
      obtain ⟨updated, hu, hf⟩ := ih tailF vs h
      exact ⟨.maxLengthFacet a :: updated, by simp [addEnumValue, hu],
        by rw [List.filter_cons_of_neg (by simp [isEnumFacet])]; exact hf⟩
    | minInclusiveFacet a =>
      rw [List.filter_cons_of_neg (by simp [isEnumFacet])] at h
      obtain ⟨updated, hu, hf⟩ := ih tailF vs h
      exact ⟨.minInclusiveFacet a :: updated, by simp [addEnumValue, hu],
        by rw [List.filter_cons_of_neg (by simp [isEnumFacet])]; exact hf⟩
    | maxInclusiveFacet a =>
      rw [List.filter_cons_of_neg (by simp [isEnumFacet])] at h
      obtain ⟨updated, hu, hf⟩ := ih tailF vs h
      exact ⟨.maxInclusiveFacet a :: updated, by simp [addEnumValue, hu],
        by rw [List.filter_cons_of_neg (by simp [isEnumFacet])]; exact hf⟩
    | minExclusiveFacet a =>
      rw [List.filter_cons_of_neg (by simp [isEnumFacet])] at h
      obtain ⟨updated, hu, hf⟩ := ih tailF vs h
      exact ⟨.minExclusiveFacet a :: updated, by simp [addEnumValue, hu],
        by rw [List.filter_cons_of_neg (by simp [isEnumFacet])]; exact hf⟩
    | maxExclusiveFacet a =>
      rw [List.filter_cons_of_neg (by simp [isEnumFacet])] at h
      obtain ⟨updated, hu, hf⟩ := ih tailF vs h
      exact ⟨.maxExclusiveFacet a :: updated, by simp [addEnumValue, hu],
        by rw [List.filter_cons_of_neg (by simp [isEnumFacet])]; exact hf⟩
    | totalDigitsFacet a =>
      rw [List.filter_cons_of_neg (by simp [isEnumFacet])] at h
      obtain ⟨updated, hu, hf⟩ := ih tailF vs h
      exact ⟨.totalDigitsFacet a :: updated, by simp [addEnumValue, hu],
        by rw [List.filter_cons_of_neg (by simp [isEnumFacet])]; exact hf⟩
    | fractionDigitsFacet a =>
      rw [List.filter_cons_of_neg (by simp [isEnumFacet])] at h
      obtain ⟨updated, hu, hf⟩ := ih tailF vs h
      exact ⟨.fractionDigitsFacet a :: updated, by simp [addEnumValue, hu],
        by rw [List.filter_cons_of_neg (by simp [isEnumFacet])]; exact hf⟩
    | whiteSpaceFacet a =>
      rw [List.filter_cons_of_neg (by simp [isEnumFacet])] at h
      obtain ⟨updated, hu, hf⟩ := ih tailF vs h
      exact ⟨.whiteSpaceFacet a :: updated, by simp [addEnumValue, hu],
        by rw [List.filter_cons_of_neg (by simp [isEnumFacet])]; exact hf⟩

theorem enumChildValues_cons_of_not_enum {child : Elem} {rest : List Elem}
    (h : ¬ (child.nsURI = XSDNamespace ∧ child.localName = "enumeration")) :
    enumChildValues (child :: rest) = enumChildValues rest := by
  simp only [enumChildValues, List.filterMap_cons, if_neg h]

theorem enumChildValues_cons_of_enum {child : Elem} {rest : List Elem}
    (h : child.nsURI = XSDNamespace ∧ child.localName = "enumeration") :
    enumChildValues (child :: rest) =
      child.getAttribute "value" :: enumChildValues rest := by
  simp only [enumChildValues, List.filterMap_cons, if_pos h]

/-- The invariant of the facet loop: if the accumulated facets hold exactly
one enumeration facet carrying `vs` (none when `vs` is empty), the loop's
result holds exactly one carrying `vs` followed by the enumeration values
of the remaining children. -/
theorem parseRestriction_loop_enum (children : List Elem) :
    ∀ (facets : List FacetValidator) (vs : List String),
    facets.filter isEnumFacet =
      (if vs = [] then [] else [.enumerationFacet vs]) →
    (parseRestrictionFacetsLoop facets children).filter isEnumFacet =
      (if vs ++ enumChildValues children = [] then []
       else [.enumerationFacet (vs ++ enumChildValues children)]) := by
  induction children with
  | nil =>
    intro facets vs h
    simpa [parseRestrictionFacetsLoop, enumChildValues] using h
  | cons child rest ih =>
    intro facets vs h
    rw [parseRestrictionFacetsLoop]
    by_cases h1 : child.nsURI ≠ XSDNamespace
    · rw [if_pos h1, enumChildValues_cons_of_not_enum (fun hc => h1 hc.1)]
      exact ih facets vs h
    · rw [if_neg h1]
      push_neg at h1
      by_cases h2 : child.localName = "simpleType"
      · rw [if_pos h2, enumChildValues_cons_of_not_enum (by simp [h2])]
        exact ih facets vs h
      · rw [if_neg h2]
        by_cases h3 : child.localName ∈ restrictionStructuralNames
        · rw [if_pos h3]
          have hne : child.localName ≠ "enumeration" := by
            intro hc
            rw [hc] at h3
            simp [restrictionStructuralNames] at h3
          rw [enumChildValues_cons_of_not_enum (by simp [hne])]
          exact ih facets vs h
        · rw [if_neg h3]
          by_cases h4 : child.localName = "enumeration"
          · have hpf : ParseFacet child.localName (child.getAttribute "value") =
                some (.enumerationFacet [child.getAttribute "value"]) := by
              rw [h4]; rfl
            simp only [hpf]
            rw [if_pos h4]
            rw [enumChildValues_cons_of_enum ⟨h1, h4⟩]
            by_cases hvs : vs = []
            · subst hvs
              simp only [List.nil_append]
              have hnone : addEnumValue facets (child.getAttribute "value") = none :=
                (addEnumValue_none_iff _ _).mpr (by simpa using h)
              simp only [hnone]
              have hnew : (facets ++
                  [FacetValidator.enumerationFacet [child.getAttribute "value"]]).filter
                    isEnumFacet =
                  (if [child.getAttribute "value"] = [] then []
                   else [.enumerationFacet [child.getAttribute "value"]]) := by
                rw [List.filter_append]
                simp only [if_neg (by simp : ¬([child.getAttribute "value"] = []))]
                rw [(by simpa using h : facets.filter isEnumFacet = [])]
                simp [isEnumFacet]
              simpa using ih _ [child.getAttribute "value"] hnew
            · rw [if_neg hvs] at h
              obtain ⟨updated, hu, hf⟩ :=
                addEnumValue_some_filter (child.getAttribute "value") facets []
                  vs h
              simp only [hu]
              have := ih updated (vs ++ [child.getAttribute "value"]) (by
                rw [hf]
                simp)
              simpa using this
          · rw [enumChildValues_cons_of_not_enum (by simp [h4])]
            match hpf : ParseFacet child.localName (child.getAttribute "value") with
            | none => exact ih facets vs h
            | some facet =>
              have hne : isEnumFacet facet = false := parseFacet_not_enum hpf h4
              have hfil : (facets ++ [facet]).filter isEnumFacet =
                  facets.filter isEnumFacet := by
                rw [List.filter_append]
                simp [hne]
              simp only [if_neg h4]
              exact ih (facets ++ [facet]) vs (hfil ▸ h)

/-- C3 (amended): all `<enumeration>` siblings of a parsed restriction
collapse into exactly one enumeration facet whose value list is the
concatenation, in document order, of the `value` attributes of those
siblings — duplicates retained, not deduplicated. -/
theorem parseRestriction_enum_collapse (children : List Elem) :
    (parseRestrictionFacets children).filter isEnumFacet =
      (if enumChildValues children = [] then []
       else [.enumerationFacet (enumChildValues children)]) := by
  have h := parseRestriction_loop_enum children [] [] (by simp)
  simpa [parseRestrictionFacets] using h

/-- An `<enumeration value="v"/>` child in the XSD namespace. -/
def enumChild (v : String) : Elem :=
  .mk "enumeration" XSDNamespace [⟨"value", v⟩] [] []

/-- Counterexample to C3 as stated: a restriction with two
`<enumeration value="A"/>` children yields one enumeration facet whose
value list contains `A` twice — the value set is not deduplicated. -/
theorem parseRestriction_duplicate_enum_counterexample :
    parseRestrictionFacets [enumChild "A", enumChild "A"] =
      [.enumerationFacet ["A", "A"]] ∧
    parseRestrictionFacets [enumChild "A", enumChild "A"] ≠
      [.enumerationFacet ["A"]] := by
  constructor
  · rfl
  · decide

/-! ### C7: wildcard namespace-constraint matching -/

/-- C7 (amended): the two wildcard matchers agree on the four `##` modes
(`##any` always, `##other` iff `e ≠ t`, `##targetNamespace` iff `e = t`,
`##local` iff `e = \x22\x22`), but they differ on explicit lists: the parsed
constraint (`ParseNamespaceConstraint` + `Matches`, reached when the
attribute value does not start with `##`) matches iff a listed URI equals
`e` or the list contains `##targetNamespace` (resp. `##local`) and
`e = t` (resp. `e` empty), whereas `Validator.matchesNamespace` compares
every whitespace-separated token literally and gives no meaning to
`##targetNamespace` / `##local` entries inside a list. -/
theorem wildcard_namespace_semantics :
    (∀ e t : String, matchesNamespace t e "##any" = true) ∧
    (∀ e t : String, (matchesNamespace t e "##other" = true ↔ e ≠ t)) ∧
    (∀ e t : String, (matchesNamespace t e "##targetNamespace" = true ↔ e = t)) ∧
    (∀ e t : String, (matchesNamespace t e "##local" = true ↔ e = "")) ∧
    (∀ e t pattern : String,
      pattern ∉ ["##any", "##other", "##targetNamespace", "##local"] →
      (matchesNamespace t e pattern = true ↔ e ∈ goFieldsStr pattern)) ∧
    (∀ e t : String, (ParseNamespaceConstraint "##any").Matches e t = true) ∧
    (∀ e t : String,
      ((ParseNamespaceConstraint "##other").Matches e t = true ↔ e ≠ t)) ∧
    (∀ e t : String,
      ((ParseNamespaceConstraint "##targetNamespace").Matches e t = true ↔
        e = t)) ∧
    (∀ e t : String,
      ((ParseNamespaceConstraint "##local").Matches e t = true ↔ e = "")) ∧
    (∀ e t value : String, value ≠ "" → hasHashHash value = false →
      ((ParseNamespaceConstraint value).Matches e t = true ↔
        (e ∈ goFieldsStr value ∨
          ("##targetNamespace" ∈ goFieldsStr value ∧ e = t) ∨
          ("##local" ∈ goFieldsStr value ∧ e = "")))) := by
  refine ⟨?_, ?_, ?_, ?_, ?_, ?_, ?_, ?_, ?_, ?_⟩
  · intro e t
    simp [matchesNamespace]
  · intro e t
    simp [matchesNamespace]
  · intro e t
    simp [matchesNamespace]
  · intro e t
    simp [matchesNamespace]
  · intro e t pattern hp
    simp only [List.mem_cons, List.not_mem_nil, or_false, not_or] at hp
    obtain ⟨hp1, hp2, hp3, hp4⟩ := hp
    rw [matchesNamespace, if_neg hp1, if_neg hp2, if_neg hp3, if_neg hp4]
    simp only [List.any_eq_true, decide_eq_true_eq]
    constructor
    · rintro ⟨x, hx, rfl⟩
      exact hx
    · intro hmem
      exact ⟨e, hmem, rfl⟩
  · intro e t
    simp [ParseNamespaceConstraint, WildcardNamespaceConstraint.Matches,
      hasHashHash]
  · intro e t
    simp [ParseNamespaceConstraint, WildcardNamespaceConstraint.Matches,
      hasHashHash]
  · intro e t
    simp [ParseNamespaceConstraint, WildcardNamespaceConstraint.Matches,
      hasHashHash]
  · intro e t
    simp [ParseNamespaceConstraint, WildcardNamespaceConstraint.Matches,
      hasHashHash]
  · intro e t value hne hhash
    rw [ParseNamespaceConstraint]
    rw [if_neg hne, if_pos (by simp [hhash])]
    rw [WildcardNamespaceConstraint.Matches]
    simp only
    rw [if_neg (by decide), if_neg (by decide), if_neg (by decide),
      if_neg (by decide), if_pos trivial]
    rw [Bool.or_eq_true, List.any_eq_true, List.any_eq_true]
    constructor
    · rintro (⟨ns, hns, hc⟩ | ⟨ns, hns, hc⟩)
      · simp only [decide_eq_true_eq] at hc
        exact Or.inl (hc ▸ hns)
      · simp only [decide_eq_true_eq] at hc
        rcases hc with ⟨rfl, rfl⟩ | ⟨rfl, rfl⟩
        · exact Or.inr (Or.inl ⟨hns, rfl⟩)
        · exact Or.inr (Or.inr ⟨hns, rfl⟩)
    · rintro (hmem | ⟨hmem, rfl⟩ | ⟨hmem, rfl⟩)
      · exact Or.inl ⟨e, hmem, by simp⟩
      · exact Or.inr ⟨"##targetNamespace", hmem, by simp⟩
      · exact Or.inr ⟨"##local", hmem, by simp⟩

theorem goFieldsStr_x_local : goFieldsStr "x ##local" = ["x", "##local"] := by
  have hd : "x ##local".data =
      ['x', ' ', '#', '#', 'l', 'o', 'c', 'a', 'l'] := rfl
  simp [goFieldsStr, hd, goFields, goIsSpace, List.takeWhile, List.dropWhile]

/-- Counterexample to C7 as stated: on the explicit list `x ##local` with
an element in no namespace, `Validator.matchesNamespace` answers `false`
although the claim's list semantics (entry `##local` means `e` empty)
requires `true` — the parsed-constraint matcher answers `true` on the same
input, so the two cited implementations disagree and the claimed single
predicate does not describe `matchesNamespace`. -/
theorem wildcard_list_entry_counterexample :
    matchesNamespace "T" "" "x ##local" = false ∧
    (ParseNamespaceConstraint "x ##local").Matches "" "T" = true := by
  constructor
  · simp [matchesNamespace, goFieldsStr_x_local]
  · simp [ParseNamespaceConstraint, WildcardNamespaceConstraint.Matches,
      hasHashHash, goFieldsStr_x_local]

/-- Witness for C7 (amended) at concrete inputs. -/
theorem wildcard_namespace_semantics_witness :
    (ParseNamespaceConstraint "x ##local").Matches "" "AnyT" = true ∧
    matchesNamespace "T" "x" "x ##local" = true := by
  constructor
  · exact (wildcard_namespace_semantics.2.2.2.2.2.2.2.2.2 "" "AnyT"
      "x ##local" (by decide) (by decide)).mpr
      (Or.inr (Or.inr ⟨by rw [goFieldsStr_x_local]; simp, rfl⟩))
  · exact (wildcard_namespace_semantics.2.2.2.2.1 "x" "T" "x ##local"
      (by decide)).mpr (by rw [goFieldsStr_x_local]; simp)

/-! ### C6: whitespace normalization is idempotent -/

theorem goReplaceWS_no_tlr {l : List Char} {c : Char}
    (h : c ∈ goReplaceWS l) : c ≠ '\t' ∧ c ≠ '\n' ∧ c ≠ '\r' := by
  unfold goReplaceWS replaceAllChar at h
  simp only [List.map_map, List.mem_map, Function.comp] at h
  obtain ⟨a, -, rfl⟩ := h
  refine ⟨?_, ?_, ?_⟩ <;> (split_ifs <;> simp_all)

theorem goReplaceWS_id_of {l : List Char}
    (h : ∀ c ∈ l, c ≠ '\t' ∧ c ≠ '\n' ∧ c ≠ '\r') : goReplaceWS l = l := by
  unfold goReplaceWS replaceAllChar
  simp only [List.map_map]
  conv_rhs => rw [← List.map_id l]
  apply List.map_congr_left
  intro a ha
  obtain ⟨h1, h2, h3⟩ := h a ha
  simp [Function.comp, h1, h2, h3]

theorem goReplaceWS_idem (l : List Char) :
    goReplaceWS (goReplaceWS l) = goReplaceWS l :=
  goReplaceWS_id_of (fun c hc => goReplaceWS_no_tlr hc)

theorem takeWhile_append_all {α : Type} {p : α → Bool} {l1 : List α}
    (l2 : List α) (h : ∀ c ∈ l1, p c) :
    (l1 ++ l2).takeWhile p = l1 ++ l2.takeWhile p := by
  induction l1 with
  | nil => rfl
  | cons a rest ih =>
    rw [List.cons_append, List.takeWhile_cons, h a (by simp),
      ih (fun c hc => h c (by simp [hc]))]
    simp

theorem takeWhile_all {α : Type} {p : α → Bool} {l : List α}
    (h : ∀ c ∈ l, p c) : l.takeWhile p = l := by
  have := @takeWhile_append_all _ p l [] h
  simpa using this

theorem dropWhile_all {α : Type} {p : α → Bool} {l : List α}
    (h : ∀ c ∈ l, p c) : l.dropWhile p = [] := by
  have := @dropWhile_append_all _ p l [] h
  simpa using this

theorem goFields_chunks {l : List Char} :
    ∀ ch ∈ goFields l, ch ≠ [] ∧ ∀ c ∈ ch, goIsSpace c = false := by
  induction l using goFields.induct with
  | case1 => simp [goFields]
  | case2 c rest hsp ih =>
    rw [goFields, if_pos hsp]
    exact ih
  | case3 c rest hsp ih =>
    rw [goFields, if_neg hsp]
    intro ch hch
    rcases List.mem_cons.mp hch with rfl | hmem
    · refine ⟨by simp, ?_⟩
      intro d hd
      rcases List.mem_cons.mp hd with rfl | hmem2
      · simpa using hsp
      · have := List.mem_takeWhile_imp hmem2
        simpa using this
    · exact ih ch hmem

theorem goFields_all_nonspace {ch : List Char} (hne : ch ≠ [])
    (hns : ∀ c ∈ ch, goIsSpace c = false) : goFields ch = [ch] := by
  match ch with
  | [] => exact absurd rfl hne
  | c :: rest =>
    rw [goFields, if_neg (by simp [hns c (by simp)])]
    rw [takeWhile_all (fun d hd => by simp [hns d (by simp [hd])])]
    rw [dropWhile_all (fun d hd => by simp [hns d (by simp [hd])])]
    rw [goFields]

theorem goFields_chunk_space_append {ch : List Char} (l : List Char)
    (hne : ch ≠ []) (hns : ∀ c ∈ ch, goIsSpace c = false) :
    goFields (ch ++ ' ' :: l) = ch :: goFields l := by
  match ch with
  | [] => exact absurd rfl hne
  | c :: rest =>
    rw [List.cons_append, goFields, if_neg (by simp [hns c (by simp)])]
    rw [takeWhile_append_all _ (fun d hd => by simp [hns d (by simp [hd])])]
    rw [dropWhile_append_all _ (fun d hd => by simp [hns d (by simp [hd])])]
    have hsp : goIsSpace ' ' = true := by decide
    rw [List.takeWhile_cons, (by simp [hsp] : (!goIsSpace ' ') = false)]
    rw [List.dropWhile_cons, (by simp [hsp] : (!goIsSpace ' ') = false)]
    simp only [Bool.false_eq_true, if_false, List.append_nil]
    rw [goFields, if_pos hsp]

theorem intercalate_space_cons_cons (a b : List Char)
    (t : List (List Char)) :
    List.intercalate [' '] (a :: b :: t) =
      a ++ ' ' :: List.intercalate [' '] (b :: t) := by
  simp [List.intercalate, List.intersperse]

theorem goFields_intercalate {chunks : List (List Char)}
    (h : ∀ ch ∈ chunks, ch ≠ [] ∧ ∀ c ∈ ch, goIsSpace c = false) :
    goFields (List.intercalate [' '] chunks) = chunks := by
  induction chunks with
  | nil =>
    rw [(by simp [List.intercalate] :
      List.intercalate [' '] ([] : List (List Char)) = [])]
    rw [goFields]
  | cons a t ih =>
    match t with
    | [] =>
      have := h a (by simp)
      rw [(by simp [List.intercalate, List.intersperse] :
        List.intercalate [' '] [a] = a)]
      exact goFields_all_nonspace this.1 this.2
    | b :: t2 =>
      rw [intercalate_space_cons_cons]
      have ha := h a (by simp)
      rw [goFields_chunk_space_append _ ha.1 ha.2]
      rw [ih (fun ch hch => h ch (by simp [hch]))]

theorem mem_intercalate_space {chunks : List (List Char)} {c : Char}
    (h : c ∈ List.intercalate [' '] chunks) :
    c = ' ' ∨ ∃ ch ∈ chunks, c ∈ ch := by
  induction chunks with
  | nil => simp [List.intercalate] at h
  | cons a t ih =>
    match t with
    | [] =>
      rw [(by simp [List.intercalate, List.intersperse] :
        List.intercalate [' '] [a] = a)] at h
      exact Or.inr ⟨a, by simp, h⟩
    | b :: t2 =>
      rw [intercalate_space_cons_cons] at h
      rcases List.mem_append.mp h with hm | hm
      · exact Or.inr ⟨a, by simp, hm⟩
      · rcases List.mem_cons.mp hm with rfl | hm2
        · exact Or.inl rfl
        · rcases ih hm2 with hsp | ⟨ch, hch, hcm⟩
          · exact Or.inl hsp
          · exact Or.inr ⟨ch, by simp [hch], hcm⟩

/-- C6: whitespace normalization is idempotent — for every character
sequence `v`, `collapse (collapse v) = collapse v` and
`replace (replace v) = replace v`. -/
theorem normalizeWhiteSpace_idempotent (v : List Char) :
    NormalizeWhiteSpace (NormalizeWhiteSpace v "collapse") "collapse" =
      NormalizeWhiteSpace v "collapse" ∧
    NormalizeWhiteSpace (NormalizeWhiteSpace v "replace") "replace" =
      NormalizeWhiteSpace v "replace" := by
  have hcol : ∀ w : List Char, NormalizeWhiteSpace w "collapse" =
      List.intercalate [' '] (goFields (goReplaceWS w)) := fun w => by
    rw [NormalizeWhiteSpace, if_neg (by decide), if_pos rfl]
  have hrepl : ∀ w : List Char, NormalizeWhiteSpace w "replace" =
      goReplaceWS w := fun w => by
    rw [NormalizeWhiteSpace, if_pos rfl]
  constructor
  · rw [hcol v, hcol _]
    have hchunks := @goFields_chunks (goReplaceWS v)
    have hrep : goReplaceWS
        (List.intercalate [' '] (goFields (goReplaceWS v))) =
        List.intercalate [' '] (goFields (goReplaceWS v)) := by
      apply goReplaceWS_id_of
      intro c hc
      rcases mem_intercalate_space hc with rfl | ⟨ch, hch, hcm⟩
      · exact ⟨by decide, by decide, by decide⟩
      · have hns := (hchunks ch hch).2 c hcm
        have hne : ∀ x : Char, goIsSpace x = true → c ≠ x := by
          intro x hx he
          rw [he, hx] at hns
          cases hns
        exact ⟨hne '\t' (by decide), hne '\n' (by decide),
          hne '\r' (by decide)⟩
    rw [hrep]
    rw [goFields_intercalate hchunks]
  · rw [hrepl, hrepl]
    exact goReplaceWS_idem v

/-- Witness for C6 at a concrete string. -/
theorem normalizeWhiteSpace_idempotent_witness :
    NormalizeWhiteSpace (NormalizeWhiteSpace " a  b ".data "collapse")
      "collapse" = NormalizeWhiteSpace " a  b ".data "collapse" :=
  (normalizeWhiteSpace_idempotent " a  b ".data).1

/-! ### C4: particle resolution and group-reference cycles -/

mutual

/-- The group-reference QNames occurring in a particle, collected through
nested model groups (but not through element declarations or resolved
types). -/
def particleGroupRefNames : Particle → List QName
  | .groupRef ref _ _ => [ref]
  | .modelGroup (.mk _ ps _ _) => particlesGroupRefNames ps
  | _ => []

/-- The group-reference QNames occurring in a particle list. -/
def particlesGroupRefNames : List Particle → List QName
  | [] => []
  | p :: rest => particleGroupRefNames p ++ particlesGroupRefNames rest

end

/-- `q` is reachable as a group reference from the particle list `ps`,
following group definitions of `s`. -/
inductive RefsFrom (s : Schema) : List Particle → QName → Prop where
  | base {ps : List Particle} {q : QName}
      (h : q ∈ particlesGroupRefNames ps) : RefsFrom s ps q
  | step {ps : List Particle} {r : QName} {g : ModelGroup} {q : QName}
      (hr : r ∈ particlesGroupRefNames ps)
      (hg : lookupQ s.Groups r = some g)
      (hq : RefsFrom s g.particles q) : RefsFrom s ps q

/-- `q` names a group lying on a reference cycle: its own definition
reaches `q` again. -/
def ReachesSelf (s : Schema) (q : QName) : Prop :=
  ∃ g, lookupQ s.Groups q = some g ∧ RefsFrom s g.particles q

theorem RefsFrom_mono {s : Schema} {ps ps' : List Particle} {q : QName}
    (hsub : ∀ r, r ∈ particlesGroupRefNames ps →
      r ∈ particlesGroupRefNames ps')
    (h : RefsFrom s ps q) : RefsFrom s ps' q := by
  induction h with
  | base hm => exact .base (hsub _ hm)
  | step hm hg hin ih => exact .step (hsub _ hm) hg hin

/-- The resolver invariant: every group-reference name in the output was
kept either because its group is undefined, or at a revisit of a name in
the incoming visited set that the input references, or deeper inside the
expansion of a group that reaches itself. -/
theorem resolve_groupRefNames_invariant (s : Schema) :
    ∀ (ps : List Particle) (visited : Finset QName), ∀ q : QName,
    q ∈ particlesGroupRefNames (resolveParticlesWithVisited s ps visited) →
    lookupQ s.Groups q = none ∨ (q ∈ visited ∧ RefsFrom s ps q) ∨
      ReachesSelf s q := by
  intro ps visited
  induction ps, visited using resolveParticlesWithVisited.induct s with
  | case1 visited =>
    intro q hq
    rw [resolveParticlesWithVisited] at hq
    simp [particlesGroupRefNames] at hq
  | case2 visited rest ref mn mx hvis ih =>
    intro q hq
    rw [resolveParticlesWithVisited, dif_pos hvis] at hq
    rw [particlesGroupRefNames, particleGroupRefNames] at hq
    rcases List.mem_append.mp hq with hm | hm
    · obtain rfl : q = ref := by simpa using hm
      refine Or.inr (Or.inl ⟨hvis, .base ?_⟩)
      simp [particlesGroupRefNames, particleGroupRefNames]
    · rcases ih q hm with hnone | ⟨hv, hrf⟩ | hreach
      · exact Or.inl hnone
      · refine Or.inr (Or.inl ⟨hv, RefsFrom_mono ?_ hrf⟩)
        intro r hr
        simp [particlesGroupRefNames, hr]
      · exact Or.inr (Or.inr hreach)
  | case3 visited rest ref mn mx hvis g hg ihInner ihRest =>
    intro q hq
    rw [resolveParticlesWithVisited, dif_neg hvis] at hq
    rw [hg] at hq
    rw [particlesGroupRefNames, particleGroupRefNames] at hq
    rcases List.mem_append.mp hq with hm | hm
    · rcases ihInner q hm with hnone | ⟨hv, hrf⟩ | hreach
      · exact Or.inl hnone
      · rcases Finset.mem_insert.mp hv with rfl | hv2
        · exact Or.inr (Or.inr ⟨g, hg, hrf⟩)
        · refine Or.inr (Or.inl ⟨hv2, .step ?_ hg hrf⟩)
          simp [particlesGroupRefNames, particleGroupRefNames]
      · exact Or.inr (Or.inr hreach)
    · rcases ihRest q hm with hnone | ⟨hv, hrf⟩ | hreach
      · exact Or.inl hnone
      · refine Or.inr (Or.inl ⟨hv, RefsFrom_mono ?_ hrf⟩)
        intro r hr
        simp [particlesGroupRefNames, hr]
      · exact Or.inr (Or.inr hreach)
  | case4 visited rest ref mn mx hvis hg ih =>
    intro q hq
    rw [resolveParticlesWithVisited, dif_neg hvis] at hq
    rw [hg] at hq
    rw [particlesGroupRefNames, particleGroupRefNames] at hq
    rcases List.mem_append.mp hq with hm | hm
    · obtain rfl : q = ref := by simpa using hm
      exact Or.inl hg
    · rcases ih q hm with hnone | ⟨hv, hrf⟩ | hreach
      · exact Or.inl hnone
      · refine Or.inr (Or.inl ⟨hv, RefsFrom_mono ?_ hrf⟩)
        intro r hr
        simp [particlesGroupRefNames, hr]
      · exact Or.inr (Or.inr hreach)
  | case5 visited rest kind inner mn mx ihInner ihRest =>
    intro q hq
    rw [resolveParticlesWithVisited] at hq
    rw [particlesGroupRefNames, particleGroupRefNames] at hq
    rcases List.mem_append.mp hq with hm | hm
    · rcases ihInner q hm with hnone | ⟨hv, hrf⟩ | hreach
      · exact Or.inl hnone
      · refine Or.inr (Or.inl ⟨hv, RefsFrom_mono ?_ hrf⟩)
        intro r hr
        simp only [particlesGroupRefNames, particleGroupRefNames,
          List.mem_append]
        exact Or.inl hr
      · exact Or.inr (Or.inr hreach)
    · rcases ihRest q hm with hnone | ⟨hv, hrf⟩ | hreach
      · exact Or.inl hnone
      · refine Or.inr (Or.inl ⟨hv, RefsFrom_mono ?_ hrf⟩)
        intro r hr
        simp [particlesGroupRefNames, hr]
      · exact Or.inr (Or.inr hreach)
  | case6 visited rest other hng hnm ih =>
    intro q hq
    rw [resolveParticlesWithVisited] at hq
    · have hempty : particleGroupRefNames other = [] := by
        cases other with
        | groupRef r mn mx => exact absurd rfl (hng r mn mx)
        | modelGroup mg =>
          cases mg with
          | mk k i mn mx => exact absurd rfl (hnm k i mn mx)
        | elementDecl d => simp [particleGroupRefNames]
        | elementRef r mn mx => simp [particleGroupRefNames]
        | anyElement w => simp [particleGroupRefNames]
      rw [particlesGroupRefNames, hempty, List.nil_append] at hq
      rcases ih q hq with hnone | ⟨hv, hrf⟩ | hreach
      · exact Or.inl hnone
      · refine Or.inr (Or.inl ⟨hv, RefsFrom_mono ?_ hrf⟩)
        intro r hr
        simp [particlesGroupRefNames, hr]
      · exact Or.inr (Or.inr hreach)
    · exact hng
    · exact hnm

/-- C4 (amended): particle group-reference resolution terminates on every
input — witnessed by `resolveParticlesWithVisited` being a total function
whose recursion measure shrinks the set of unexpanded group names — and it
tracks the set of group QNames currently being expanded: on revisiting a
QName already in the set the inner `GroupRef` is kept unresolved instead of
being recursed into (first conjunct), so that every `GroupRef` left
anywhere in the (finite) output either names a group with no definition in
the schema's group map or names a group that lies on a reference cycle
(second conjunct). -/
theorem resolveParticles_cycle_detection :
    (∀ (s : Schema) (ref : QName) (mn mx : Int) (rest : List Particle)
        (visited : Finset QName), ref ∈ visited →
      resolveParticlesWithVisited s (.groupRef ref mn mx :: rest) visited =
        .groupRef ref mn mx :: resolveParticlesWithVisited s rest visited) ∧
    (∀ (s : Schema) (ps : List Particle) (q : QName),
      q ∈ particlesGroupRefNames (resolveParticles s ps) →
      lookupQ s.Groups q = none ∨ ReachesSelf s q) := by
  constructor
  · intro s ref mn mx rest visited hvis
    rw [resolveParticlesWithVisited, dif_pos hvis]
  · intro s ps q hq
    rcases resolve_groupRefNames_invariant s ps ∅ q hq with
      hnone | ⟨hv, -⟩ | hreach
    · exact Or.inl hnone
    · exact absurd hv (Finset.not_mem_empty q)
    · exact Or.inr hreach

/-- Witness for C4 (amended): a reference to `g` already being expanded is
kept unresolved. -/
theorem resolveParticles_cycle_detection_witness :
    resolveParticlesWithVisited (Schema.mk "" [] [] [] [] [] [] [])
      [.groupRef ⟨"", "g"⟩ 1 1] {⟨"", "g"⟩} = [.groupRef ⟨"", "g"⟩ 1 1] := by
  rw [resolveParticles_cycle_detection.1 _ _ _ _ _ _ (by decide)]
  rw [resolveParticlesWithVisited]

/-- Counterexample to C4 as stated: with no groups defined at all — so no
QName is ever revisited and no cycle position exists — a dangling
`GroupRef` still survives resolution, so the output is not free of
`GroupRef`s outside cycle positions. -/
theorem resolveParticles_dangling_ref_counterexample :
    resolveParticles (Schema.mk "" [] [] [] [] [] [] [])
      [.groupRef ⟨"", "g"⟩ 1 1] = [.groupRef ⟨"", "g"⟩ 1 1] ∧
    (∀ q : QName, ¬ ReachesSelf (Schema.mk "" [] [] [] [] [] [] []) q) := by
  constructor
  · simp [resolveParticles, resolveParticlesWithVisited, lookupQ,
      Schema.Groups]
  · rintro q ⟨g, hg, -⟩
    simp [Schema.Groups, lookupQ] at hg

/-! ### C1: substitution accepted despite incompatible types

A concrete schema with head element `X : B`, substitution-group member
`E : A`, and two unrelated simple types `A`, `B` (no derivation between
them). -/

def subQE : QName := ⟨"", "E"⟩
def subQX : QName := ⟨"", "X"⟩
def subQA : QName := ⟨"", "A"⟩
def subQB : QName := ⟨"", "B"⟩

def subTA : XsdType := .simple (.mk subQA ⟨"", ""⟩ none none none)
def subTB : XsdType := .simple (.mk subQB ⟨"", ""⟩ none none none)

def subDeclE : ElementDecl :=
  .mk subQE (some subTA) 1 1 false false ⟨"", ""⟩ "" "" []

def subDeclX : ElementDecl :=
  .mk subQX (some subTB) 1 1 false false ⟨"", ""⟩ "" "" []

/-- Schema: elements `E : A` and `X : B`, types `A` and `B` unrelated,
substitution-group index `X ↦ [E]`. -/
def subSchema : Schema :=
  .mk "" [(subQE, subDeclE), (subQX, subDeclX)] [(subQA, subTA), (subQB, subTB)]
    [] [] [] [] [(subQX, [subQE])]

/-- C1 (code bug, evaluated at the failing input): in `subSchema` the
member `E`'s type `A` neither equals nor derives from the head `X`'s type
`B` — `isTypeCompatible` answers `false` — yet `isSubstitutableFor`
accepts the substitution through its backward-compatibility fallback
(`actualDecl.Type != nil && expectedDecl.Type != nil`), and the
content-model matcher therefore accepts element `E` at a particle
expecting `X`, contradicting the claim that such an element is never
accepted. -/
theorem substitution_incompatible_type_accepted :
    isTypeCompatible subSchema (some subTA) (some subTB) = false ∧
    Schema.isSubstitutableFor subSchema subQE subQX = true ∧
    elementMatchesParticle subSchema (fun _ _ => [])
      (Elem.mk "E" "" [] [] []) (.elementRef subQX 1 1) = true := by
  have hcompat : isTypeCompatible subSchema (some subTA) (some subTB) = false := by
    rw [isTypeCompatible, isTypeCompatibleWithCycleDetection]
    rw [if_neg (by decide), dif_neg (by decide)]
    split
    · rename_i baseType hb
      rw [show derivationBase subSchema subTA = none from rfl] at hb
      cases hb
    · rfl
  have hsub : Schema.isSubstitutableFor subSchema subQE subQX = true := by
    rw [Schema.isSubstitutableFor]
    split
    · rename_i members hmem
      rw [show lookupQ subSchema.SubstitutionGroups subQX =
        some [subQE] from rfl] at hmem
      obtain rfl := Option.some.inj hmem
      rw [if_pos (by decide)]
      rw [substitutionMemberVerdict]
      simp only [show lookupQ subSchema.ElementDecls subQE =
        some subDeclE from rfl]
      simp only [show lookupQ subSchema.ElementDecls subQX =
        some subDeclX from rfl]
      simp only [show subDeclE.type? = some subTA from rfl]
      simp only [show subDeclX.type? = some subTB from rfl]
      rw [if_neg (by rw [hcompat]; exact Bool.false_ne_true)]
      rfl
    · rename_i hmem
      rw [show lookupQ subSchema.SubstitutionGroups subQX =
        some [subQE] from rfl] at hmem
      cases hmem
  refine ⟨hcompat, hsub, ?_⟩
  rw [elementMatchesParticle]
  simp only [Elem.nsURI, Elem.localName]
  rw [if_neg (by decide)]
  exact hsub

/-! ### C2: identity-constraint state survives across Validate calls

A concrete schema with one key constraint (selector `item`, field `@val`)
and a document with two distinct key values. -/

def icKey : IdentityConstraint := ⟨"k", "key", some ⟨"item"⟩, [⟨"@val"⟩], ⟨"", ""⟩⟩

def icRootDecl : ElementDecl :=
  .mk ⟨"", "root"⟩ none 1 1 false false ⟨"", ""⟩ "" "" [icKey]

def icSchema : Schema := .mk "" [(⟨"", "root"⟩, icRootDecl)] [] [] [] [] [] []

def icItem1 : Elem := .mk "item" "" [⟨"val", "1"⟩] [] []

def icItem2 : Elem := .mk "item" "" [⟨"val", "2"⟩] [] []

def icRoot : Elem := .mk "root" "" [] [icItem1, icItem2] []

def icDoc : Document := ⟨some icRoot⟩

theorem icSelectorEval :
    evaluateSelector (⟨some icRoot⟩ : Document) (some ⟨"item"⟩) =
      [icItem1, icItem2] := by
  simp [evaluateSelector, icRoot, icItem1, icItem2,
    evaluateSimpleXPath, goTrimSpace, removeNamespacePrefixes, splitOnChar,
    stripStepQualifier, goIsSpace, findMatchingChildren,
    findMatchingDescendants, Elem.children, Elem.localName,
    List.intercalate, List.intersperse]

/-- The identity-constraint state after registering `icKey` and validating
`icDoc` once: both key values are recorded. -/
def icStateAfter : IdentityConstraintValidator :=
  ⟨[("k", icKey)], [("k", [("1", [icItem1]), ("2", [icItem2])])]⟩

theorem icValidate_first :
    IdentityConstraintValidator.Validate ⟨[("k", icKey)], [("k", [])]⟩
      (⟨some icRoot⟩ : Document) = ([], icStateAfter) := by
  simp [IdentityConstraintValidator.Validate, icKey, icSelectorEval,
    icRecordNode, icKeyrefPass, extractFieldValues, evaluateFieldXPath,
    goTrimSpace, goIsSpace, getElementTextContent, containsSeq,
    Elem.getAttribute, Elem.attrs, List.find?, icItem1, icItem2, lookupS,
    insertS, icStateAfter, String.intercalate, String.intercalate.go]

/-- The duplicate-key violations the second validation call reports. -/
def icDup1 : Violation :=
  ⟨some icItem1, "", "cvc-identity-constraint.4.1",
    "Duplicate key constraint \x27k\x27 value: 1", [], ""⟩

def icDup2 : Violation :=
  ⟨some icItem2, "", "cvc-identity-constraint.4.1",
    "Duplicate key constraint \x27k\x27 value: 2", [], ""⟩

theorem icValidate_second :
    IdentityConstraintValidator.Validate icStateAfter
      (⟨some icRoot⟩ : Document) =
      ([icDup1, icDup2],
        ⟨[("k", icKey)],
          [("k", [("1", [icItem1, icItem1]), ("2", [icItem2, icItem2])])]⟩) := by
  simp [IdentityConstraintValidator.Validate, icKey, icSelectorEval,
    icRecordNode, icKeyrefPass, extractFieldValues, evaluateFieldXPath,
    goTrimSpace, goIsSpace, getElementTextContent, containsSeq,
    Elem.getAttribute, Elem.attrs, List.find?, icItem1, icItem2, lookupS,
    insertS, icStateAfter, String.intercalate, String.intercalate.go,
    icDup1, icDup2]

theorem icCollectNoOp (v : Validator) : collectIDsAndRefs v icRoot = v := by
  simp [icRoot, icItem1, icItem2, collectIDsAndRefs, collectChildren,
    collectAttrStep, idrefAttrNames, Elem.attrs]

/-- C2 (code bug, evaluated at the failing input): with the key-constraint
schema `icSchema` and document `icDoc` (two `item` children with distinct
`@val` keys), the first `Validate` call reports exactly the element
checker's violations (none from the identity constraints), but a second
call on the very same validator reports two additional
`cvc-identity-constraint.4.1` duplicates: `Validate` resets `ids`,
`idRefs` and `violations`, but not the identity-constraint validator's
`keyValues`, so identity-constraint state is not per-document and the
violation list is not reproducible — whatever the (deterministic) element
checker contributes. -/
theorem validate_revalidation_not_idempotent (chk : Elem → List Violation) :
    (ValidateWith chk (NewValidator icSchema) (some icDoc)).1 = chk icRoot ∧
    (ValidateWith chk
        (ValidateWith chk (NewValidator icSchema) (some icDoc)).2
        (some icDoc)).1 = chk icRoot ++ [icDup1, icDup2] ∧
    (ValidateWith chk (NewValidator icSchema) (some icDoc)).1 ≠
      (ValidateWith chk
        (ValidateWith chk (NewValidator icSchema) (some icDoc)).2
        (some icDoc)).1 := by
  have hnew : NewValidator icSchema =
      ⟨[], [], [], ⟨[("k", icKey)], [("k", [])]⟩⟩ := by
    simp [NewValidator, icSchema, icRootDecl, icKey, Schema.ElementDecls,
      ElementDecl.constraints, NewIdentityConstraintValidator,
      IdentityConstraintValidator.AddConstraint, insertS]
  have h1 : ValidateWith chk (NewValidator icSchema) (some icDoc) =
      (chk icRoot, ⟨[], [], chk icRoot, icStateAfter⟩) := by
    rw [hnew]
    simp [ValidateWith, icDoc, icCollectNoOp, validateIDREFs,
      icValidate_first]
  have h2 : ValidateWith chk (⟨[], [], chk icRoot, icStateAfter⟩ : Validator)
      (some icDoc) =
      (chk icRoot ++ [icDup1, icDup2],
        ⟨[], [], chk icRoot ++ [icDup1, icDup2],
          ⟨[("k", icKey)],
            [("k", [("1", [icItem1, icItem1]),
              ("2", [icItem2, icItem2])])]⟩⟩) := by
    simp [ValidateWith, icDoc, icCollectNoOp, validateIDREFs,
      icValidate_second]
  refine ⟨by rw [h1], by rw [h1, h2], ?_⟩
  rw [h1, h2]
  intro hcon
  have hlen := congrArg List.length hcon
  simp at hlen

/-! ### C10: name-driven ID / IDREF collection

Declarative (claim-side) description of the traversal: the attribute
occurrences in document order, the ID and IDREF occurrences among them,
first/last occurrence per value, and the duplicate-ID violations. -/

mutual

/-- The (attribute, owning element) occurrences of a tree, in the
traversal order of `collectIDsAndRefs`: the element's own attributes in
order, then the children's recursively. -/
def specAttrOccs : Elem → List (Attr × Elem)
  | .mk ln ns as ch ts =>
    as.map (fun a => (a, Elem.mk ln ns as ch ts)) ++ specAttrOccsList ch

/-- Attribute occurrences of a forest, left to right. -/
def specAttrOccsList : List Elem → List (Attr × Elem)
  | [] => []
  | e :: rest => specAttrOccs e ++ specAttrOccsList rest

end

/-- The occurrences collected as IDs: local name literally `id` or `ID`. -/
def specIDOccs (l : List (Attr × Elem)) : List (Attr × Elem) :=
  l.filter (fun p => p.1.localName = "id" ∨ p.1.localName = "ID")

/-- The occurrences collected as IDREF candidates: local name among the
IDREF attribute names and non-empty value. -/
def specIDREFOccs (l : List (Attr × Elem)) : List (Attr × Elem) :=
  l.filter (fun p => p.1.localName ∈ idrefAttrNames ∧ p.1.value ≠ "")

/-- The element of the first occurrence carrying value `v`. -/
def firstIDElem : List (Attr × Elem) → String → Option Elem
  | [], _ => none
  | (a, e) :: rest, v => if a.value = v then some e else firstIDElem rest v

/-- The element of the last occurrence carrying value `v`. -/
def lastIDElem : List (Attr × Elem) → String → Option Elem
  | [], _ => none
  | (a, e) :: rest, v =>
    match lastIDElem rest v with
    | some e2 => some e2
    | none => if a.value = v then some e else none

/-- The `cvc-id.2` violations, one per occurrence whose value was already
seen (`seen` starts as the empty set and accumulates first
occurrences). -/
def specDupViols (seen : String → Bool) : List (Attr × Elem) → List Violation
  | [] => []
  | (a, e) :: rest =>
    if seen a.value then
      ⟨some e, a.localName, "cvc-id.2",
          "Duplicate ID value \x27" ++ a.value ++ "\x27", [], a.value⟩ ::
        specDupViols seen rest
    else specDupViols (fun x => (x = a.value) || seen x) rest

/-- One traversal step, uncurried. -/
def collectStep (v : Validator) (p : Attr × Elem) : Validator :=
  collectAttrStep v p.2 p.1

theorem lookupS_insertS {α : Type} (m : List (String × α)) (k x : String)
    (val : α) :
    lookupS (insertS m k val) x =
      if k = x then some val else lookupS m x := by
  induction m with
  | nil => simp [insertS, lookupS]
  | cons hd rest ih =>
    obtain ⟨k2, w⟩ := hd
    rw [insertS]
    by_cases hk : k2 = k
    · subst hk
      rw [if_pos rfl, lookupS, lookupS]
      by_cases hx : k2 = x
      · simp [hx]
      · simp [hx]
    · rw [if_neg hk, lookupS, lookupS, ih]
      by_cases hx : k2 = x
      · subst hx
        have hkx : ¬ (k = k2) := fun hcon => hk hcon.symm
        simp [hkx]
      · simp [hx]

theorem collectAttrStep_ids (v : Validator) (e : Elem) (a : Attr) :
    (collectAttrStep v e a).ids =
      if a.localName = "id" ∨ a.localName = "ID" then
        match lookupS v.ids a.value with
        | some _ => v.ids
        | none => insertS v.ids a.value e
      else v.ids := by
  simp only [collectAttrStep]
  by_cases h2 : a.localName ∈ idrefAttrNames ∧ a.value ≠ ""
  all_goals first
    | rw [if_pos h2]
    | rw [if_neg h2]
  all_goals (
    by_cases h1 : a.localName = "id" ∨ a.localName = "ID"
    · rw [if_pos h1, if_pos h1]
      match hl : lookupS v.ids a.value with
      | some e0 => rfl
      | none => rfl
    · rw [if_neg h1, if_neg h1])

theorem collectAttrStep_idRefs (v : Validator) (e : Elem) (a : Attr) :
    (collectAttrStep v e a).idRefs =
      if a.localName ∈ idrefAttrNames ∧ a.value ≠ "" then
        insertS v.idRefs a.value e
      else v.idRefs := by
  simp only [collectAttrStep]
  by_cases h2 : a.localName ∈ idrefAttrNames ∧ a.value ≠ ""
  all_goals first
    | rw [if_pos h2, if_pos h2]
    | rw [if_neg h2, if_neg h2]
  all_goals (
    by_cases h1 : a.localName = "id" ∨ a.localName = "ID"
    · rw [if_pos h1]
      match hl : lookupS v.ids a.value with
      | some e0 => rfl
      | none => rfl
    · rw [if_neg h1])

theorem collectAttrStep_violations (v : Validator) (e : Elem) (a : Attr) :
    (collectAttrStep v e a).violations =
      v.violations ++
        (if a.localName = "id" ∨ a.localName = "ID" then
          match lookupS v.ids a.value with
          | some _ =>
            [⟨some e, a.localName, "cvc-id.2",
              "Duplicate ID value \x27" ++ a.value ++ "\x27", [], a.value⟩]
          | none => []
        else []) := by
  simp only [collectAttrStep]
  by_cases h2 : a.localName ∈ idrefAttrNames ∧ a.value ≠ ""
  all_goals first
    | rw [if_pos h2]
    | rw [if_neg h2]
  all_goals (
    by_cases h1 : a.localName = "id" ∨ a.localName = "ID"
    · rw [if_pos h1, if_pos h1]
      match hl : lookupS v.ids a.value with
      | some e0 => rfl
      | none => simp
    · rw [if_neg h1, if_neg h1]
      simp)

theorem collectAttrStep_idConstraints (v : Validator) (e : Elem) (a : Attr) :
    (collectAttrStep v e a).idConstraints = v.idConstraints := by
  simp only [collectAttrStep]
  by_cases h2 : a.localName ∈ idrefAttrNames ∧ a.value ≠ ""
  all_goals first
    | rw [if_pos h2]
    | rw [if_neg h2]
  all_goals (
    by_cases h1 : a.localName = "id" ∨ a.localName = "ID"
    · rw [if_pos h1]
      match hl : lookupS v.ids a.value with
      | some e0 => rfl
      | none => rfl
    · rw [if_neg h1])

theorem collect_eq_fold_aux : ∀ n : Nat,
    (∀ e : Elem, sizeOf e ≤ n → ∀ v,
      collectIDsAndRefs v e = (specAttrOccs e).foldl collectStep v) ∧
    (∀ es : List Elem, sizeOf es ≤ n → ∀ v,
      collectChildren v es = (specAttrOccsList es).foldl collectStep v) := by
  intro n
  induction n with
  | zero =>
    constructor
    · intro e he
      exfalso
      cases e
      simp_arith at he
    · intro es hes
      exfalso
      cases es <;> simp_arith at hes
  | succ n ih =>
    constructor
    · intro e he v
      match e with
      | .mk ln ns as ch ts =>
        rw [collectIDsAndRefs, specAttrOccs, List.foldl_append]
        have hch : sizeOf ch ≤ n := by
          simp_arith at he
          omega
        rw [ih.2 ch hch]
        congr 1
        rw [List.foldl_map]
        rfl
    · intro es hes v
      match es with
      | [] =>
        rw [collectChildren, specAttrOccsList]
        rfl
      | e :: rest =>
        rw [collectChildren, specAttrOccsList, List.foldl_append]
        have h1 : sizeOf e ≤ n := by
          simp_arith at hes
          omega
        have h2 : sizeOf rest ≤ n := by
          simp_arith at hes
          omega
        rw [ih.1 e h1 v, ih.2 rest h2]

/-- `collectIDsAndRefs` is the left fold of the per-attribute step over the
attribute occurrences in traversal order. -/
theorem collectIDsAndRefs_eq_fold (v : Validator) (e : Elem) :
    collectIDsAndRefs v e = (specAttrOccs e).foldl collectStep v :=
  (collect_eq_fold_aux (sizeOf e)).1 e le_rfl v

theorem specIDOccs_cons_pos {a : Attr} {e : Elem} {rest : List (Attr × Elem)}
    (h : a.localName = "id" ∨ a.localName = "ID") :
    specIDOccs ((a, e) :: rest) = (a, e) :: specIDOccs rest := by
  simp [specIDOccs, List.filter_cons, h]

theorem specIDOccs_cons_neg {a : Attr} {e : Elem} {rest : List (Attr × Elem)}
    (h : ¬ (a.localName = "id" ∨ a.localName = "ID")) :
    specIDOccs ((a, e) :: rest) = specIDOccs rest := by
  simp only [specIDOccs, List.filter_cons]
  rw [if_neg (by simpa using h)]

theorem specIDREFOccs_cons_pos {a : Attr} {e : Elem}
    {rest : List (Attr × Elem)}
    (h : a.localName ∈ idrefAttrNames ∧ a.value ≠ "") :
    specIDREFOccs ((a, e) :: rest) = (a, e) :: specIDREFOccs rest := by
  simp only [specIDREFOccs, List.filter_cons]
  rw [if_pos (by simpa using h)]

theorem specIDREFOccs_cons_neg {a : Attr} {e : Elem}
    {rest : List (Attr × Elem)}
    (h : ¬ (a.localName ∈ idrefAttrNames ∧ a.value ≠ "")) :
    specIDREFOccs ((a, e) :: rest) = specIDREFOccs rest := by
  simp only [specIDREFOccs, List.filter_cons]
  rw [if_neg (by simpa using h)]

/-- `id` / `ID` names are never IDREF-candidate names. -/
theorem id_not_idref {a : Attr} (h : a.localName = "id" ∨ a.localName = "ID") :
    ¬ (a.localName ∈ idrefAttrNames ∧ a.value ≠ "") := by
  rintro ⟨hmem, -⟩
  rcases h with h | h <;> (rw [h] at hmem; revert hmem; decide)

/-- IDREF-candidate names are never `id` / `ID`. -/
theorem idref_not_id {a : Attr} (h : a.localName ∈ idrefAttrNames) :
    ¬ (a.localName = "id" ∨ a.localName = "ID") := by
  rintro (hc | hc) <;> (rw [hc] at h; revert h; decide)

theorem fold_ids (l : List (Attr × Elem)) :
    ∀ (v : Validator) (x : String),
    lookupS ((l.foldl collectStep v).ids) x =
      match lookupS v.ids x with
      | some e0 => some e0
      | none => firstIDElem (specIDOccs l) x := by
  induction l with
  | nil =>
    intro v x
    rw [List.foldl_nil]
    cases hl : lookupS v.ids x <;> simp [specIDOccs, firstIDElem]
  | cons p rest ih =>
    intro v x
    obtain ⟨a, e⟩ := p
    rw [List.foldl_cons, ih]
    show (match lookupS (collectAttrStep v e a).ids x with
      | some e0 => some e0
      | none => firstIDElem (specIDOccs rest) x) = _
    rw [collectAttrStep_ids]
    by_cases h1 : a.localName = "id" ∨ a.localName = "ID"
    · rw [if_pos h1, specIDOccs_cons_pos h1]
      match hl : lookupS v.ids a.value with
      | some e0 =>
        cases hx : lookupS v.ids x with
        | some e1 => simp
        | none =>
          rw [firstIDElem,
            if_neg (fun hc => by rw [hc, hx] at hl; cases hl)]
      | none =>
        rw [lookupS_insertS]
        by_cases hax : a.value = x
        · rw [if_pos hax, show lookupS v.ids x = none from hax ▸ hl,
            firstIDElem, if_pos hax]
        · rw [if_neg hax]
          cases hx : lookupS v.ids x with
          | some e1 => simp
          | none => rw [firstIDElem, if_neg hax]
    · rw [if_neg h1, specIDOccs_cons_neg h1]
theorem fold_idRefs (l : List (Attr × Elem)) :
    ∀ (v : Validator) (x : String),
    lookupS ((l.foldl collectStep v).idRefs) x =
      match lastIDElem (specIDREFOccs l) x with
      | some e0 => some e0
      | none => lookupS v.idRefs x := by
  induction l with
  | nil =>
    intro v x
    rw [List.foldl_nil]
    simp [specIDREFOccs, lastIDElem]
  | cons p rest ih =>
    intro v x
    obtain ⟨a, e⟩ := p
    rw [List.foldl_cons, ih]
    show (match lastIDElem (specIDREFOccs rest) x with
      | some e0 => some e0
      | none => lookupS (collectAttrStep v e a).idRefs x) = _
    rw [collectAttrStep_idRefs]
    by_cases h2 : a.localName ∈ idrefAttrNames ∧ a.value ≠ ""
    · rw [if_pos h2, specIDREFOccs_cons_pos h2, lookupS_insertS]
      rw [lastIDElem]
      cases hlast : lastIDElem (specIDREFOccs rest) x with
      | some e2 => rfl
      | none =>
        by_cases hax : a.value = x
        · rw [if_pos hax, if_pos hax]
        · rw [if_neg hax, if_neg hax]
    · rw [if_neg h2, specIDREFOccs_cons_neg h2]

theorem specDupViols_congr : ∀ (l : List (Attr × Elem))
    (s1 s2 : String → Bool), (∀ x, s1 x = s2 x) →
    specDupViols s1 l = specDupViols s2 l := by
  intro l
  induction l with
  | nil => intro s1 s2 h; rfl
  | cons p rest ih =>
    intro s1 s2 h
    obtain ⟨a, e⟩ := p
    rw [specDupViols, specDupViols, h a.value]
    by_cases hs : s2 a.value = true
    · rw [if_pos hs, if_pos hs, ih s1 s2 h]
    · rw [if_neg hs, if_neg hs]
      exact ih _ _ (fun x => by rw [h x])

theorem fold_violations (l : List (Attr × Elem)) :
    ∀ v : Validator,
    (l.foldl collectStep v).violations =
      v.violations ++
        specDupViols (fun x => (lookupS v.ids x).isSome) (specIDOccs l) := by
  induction l with
  | nil =>
    intro v
    rw [List.foldl_nil]
    simp [specIDOccs, specDupViols]
  | cons p rest ih =>
    intro v
    obtain ⟨a, e⟩ := p
    rw [List.foldl_cons, ih]
    show (collectAttrStep v e a).violations ++
        specDupViols (fun x => (lookupS (collectAttrStep v e a).ids x).isSome)
          (specIDOccs rest) = _
    rw [collectAttrStep_violations, collectAttrStep_ids]
    by_cases h1 : a.localName = "id" ∨ a.localName = "ID"
    · rw [if_pos h1, if_pos h1, specIDOccs_cons_pos h1, specDupViols]
      match hl : lookupS v.ids a.value with
      | some e0 =>
        rw [if_pos (by rfl)]
        simp
      | none =>
        rw [if_neg (by simp)]
        rw [List.append_nil]
        congr 1
        apply specDupViols_congr
        intro x
        rw [lookupS_insertS]
        by_cases hax : a.value = x
        · rw [if_pos hax]
          simp [hax.symm]
        · rw [if_neg hax]
          have : (x = a.value) = False := by
            simp
            exact fun hc => hax hc.symm
          simp [this]
    · rw [if_neg h1, if_neg h1, specIDOccs_cons_neg h1, List.append_nil]

theorem insertS_keys {α : Type} (m : List (String × α)) (k : String)
    (val : α) :
    (insertS m k val).map Prod.fst =
      if k ∈ m.map Prod.fst then m.map Prod.fst
      else m.map Prod.fst ++ [k] := by
  induction m with
  | nil => simp [insertS]
  | cons hd rest ih =>
    obtain ⟨k2, w⟩ := hd
    rw [insertS]
    by_cases hk : k2 = k
    · subst hk
      rw [if_pos rfl]
      simp
    · rw [if_neg hk]
      simp only [List.map_cons]
      rw [ih]
      by_cases hmem : k ∈ rest.map Prod.fst
      · rw [if_pos hmem, if_pos (by simp [hmem])]
      · rw [if_neg hmem,
          if_neg (by simp [hmem]; exact fun hc => hk hc.symm)]
        simp

theorem insertS_keys_nodup {α : Type} {m : List (String × α)} {k : String}
    {val : α} (h : (m.map Prod.fst).Nodup) :
    ((insertS m k val).map Prod.fst).Nodup := by
  rw [insertS_keys]
  by_cases hmem : k ∈ m.map Prod.fst
  · rw [if_pos hmem]
    exact h
  · rw [if_neg hmem]
    simp [List.nodup_append, h, hmem]

theorem fold_idRefs_nodup (l : List (Attr × Elem)) :
    ∀ v : Validator, ((v.idRefs.map Prod.fst).Nodup) →
    (((l.foldl collectStep v).idRefs).map Prod.fst).Nodup := by
  induction l with
  | nil => intro v h; simpa using h
  | cons p rest ih =>
    intro v h
    obtain ⟨a, e⟩ := p
    rw [List.foldl_cons]
    apply ih
    show (((collectAttrStep v e a).idRefs).map Prod.fst).Nodup
    rw [collectAttrStep_idRefs]
    by_cases h2 : a.localName ∈ idrefAttrNames ∧ a.value ≠ ""
    · rw [if_pos h2]
      exact insertS_keys_nodup h
    · rw [if_neg h2]
      exact h

theorem idrefViols_map_actual (ids : List (String × Elem)) :
    ∀ m : List (String × Elem),
    ((m.filterMap (fun p =>
        match lookupS ids p.1 with
        | some _ => none
        | none =>
          some (⟨some p.2, "", "cvc-id.1",
            "There is no ID/IDREF binding for IDREF \x27" ++ p.1 ++ "\x27",
            [], p.1⟩ : Violation))).map (fun viol => viol.Actual)) =
      (m.map Prod.fst).filter (fun x => (lookupS ids x).isNone) := by
  intro m
  induction m with
  | nil => rfl
  | cons p rest ih =>
    obtain ⟨k, e⟩ := p
    cases hl : lookupS ids k with
    | some e0 =>
      simp only [List.filterMap_cons, List.map_cons, List.filter_cons, hl]
      rw [if_neg (by simp)]
      exact ih
    | none =>
      simp only [List.filterMap_cons, List.map_cons, List.filter_cons, hl]
      rw [if_pos (by simp)]
      rw [ih]

/-- C10: ID/IDREF cross-reference checking is driven by attribute names,
not declared schema types.  Starting from a fresh collection state, over
the attribute occurrences of the document tree in traversal order:
(1) the ID registry binds a value exactly to the first element whose
attribute named literally `id` or `ID` carries it (`specIDOccs` filters
by exactly those two names); (2) the IDREF registry binds a value exactly
to the LAST element whose attribute is named among
target/ref/idref/IDREF/idlocation/sendid with a non-empty value
(`specIDREFOccs` filters by exactly that predicate); (3) the violations
produced by the walk are exactly the `cvc-id.2` duplicate reports of
`specDupViols`, one per ID occurrence whose value was already seen;
(4) the IDREF registry keys are duplicate-free; (5) `validateIDREFs`
appends reports whose `Actual` values are exactly the IDREF-registry
values with no ID binding, (6) that value list is duplicate-free (one
report per unmatched value), and (7) every appended report carries code
`cvc-id.1`. -/
theorem collectIDsAndRefs_name_driven (t : Elem)
    (idc : IdentityConstraintValidator) :
    (∀ x, lookupS (collectIDsAndRefs ⟨[], [], [], idc⟩ t).ids x =
        firstIDElem (specIDOccs (specAttrOccs t)) x) ∧
    (∀ x, lookupS (collectIDsAndRefs ⟨[], [], [], idc⟩ t).idRefs x =
        lastIDElem (specIDREFOccs (specAttrOccs t)) x) ∧
    (collectIDsAndRefs ⟨[], [], [], idc⟩ t).violations =
        specDupViols (fun x => false) (specIDOccs (specAttrOccs t)) ∧
    (((collectIDsAndRefs ⟨[], [], [], idc⟩ t).idRefs.map Prod.fst).Nodup) ∧
    (((validateIDREFs (collectIDsAndRefs ⟨[], [], [], idc⟩ t)).violations.drop
          (collectIDsAndRefs ⟨[], [], [], idc⟩ t).violations.length).map
        (fun viol => viol.Actual) =
      ((collectIDsAndRefs ⟨[], [], [], idc⟩ t).idRefs.map Prod.fst).filter
        (fun x =>
          (lookupS (collectIDsAndRefs ⟨[], [], [], idc⟩ t).ids x).isNone)) ∧
    ((((collectIDsAndRefs ⟨[], [], [], idc⟩ t).idRefs.map Prod.fst).filter
        (fun x =>
          (lookupS (collectIDsAndRefs ⟨[], [], [], idc⟩ t).ids x).isNone)).Nodup) ∧
    (∀ viol ∈ (validateIDREFs (collectIDsAndRefs ⟨[], [], [], idc⟩ t)).violations.drop
          (collectIDsAndRefs ⟨[], [], [], idc⟩ t).violations.length,
        viol.Code = "cvc-id.1") := by
  have hfold := collectIDsAndRefs_eq_fold ⟨[], [], [], idc⟩ t
  have hdrop : (validateIDREFs (collectIDsAndRefs ⟨[], [], [], idc⟩ t)).violations.drop
      (collectIDsAndRefs ⟨[], [], [], idc⟩ t).violations.length =
      (collectIDsAndRefs ⟨[], [], [], idc⟩ t).idRefs.filterMap (fun p =>
        match lookupS (collectIDsAndRefs ⟨[], [], [], idc⟩ t).ids p.1 with
        | some _ => none
        | none =>
          some ⟨some p.2, "", "cvc-id.1",
            "There is no ID/IDREF binding for IDREF \x27" ++ p.1 ++ "\x27",
            [], p.1⟩) := by
    show ((collectIDsAndRefs ⟨[], [], [], idc⟩ t).violations ++ _).drop _ = _
    rw [List.drop_left]
  have hnodup : (((collectIDsAndRefs ⟨[], [], [], idc⟩ t).idRefs.map
      Prod.fst).Nodup) := by
    rw [hfold]
    exact fold_idRefs_nodup _ _ List.nodup_nil
  refine ⟨?_, ?_, ?_, hnodup, ?_, ?_, ?_⟩
  · intro x
    rw [hfold, fold_ids]
    rfl
  · intro x
    rw [hfold, fold_idRefs]
    cases hl : lastIDElem (specIDREFOccs (specAttrOccs t)) x <;> rfl
  · rw [hfold, fold_violations]
    show [] ++ _ = _
    rw [List.nil_append]
    exact specDupViols_congr _ _ _ (fun x => rfl)
  · rw [hdrop]
    exact idrefViols_map_actual _ _
  · exact hnodup.filter _
  · intro viol hv
    rw [hdrop] at hv
    obtain ⟨p, hp, hf⟩ := List.mem_filterMap.mp hv
    cases hl : lookupS (collectIDsAndRefs ⟨[], [], [], idc⟩ t).ids p.1 with
    | some e0 => rw [hl] at hf; cases hf
    | none => rw [hl] at hf; cases hf; rfl

end GoXsd
